import Mathlib

/-!
# TinyGarbageCollector: a mark-sweep collector for a toy stack VM

A shallow embedding of `src/main.cpp`.

* Pointers are addresses (`Addr`, natural numbers, `NULL = 0`).
* The heap registry, the singly linked list that starts at `vm->head` and is
  threaded through `_Object::next`, is a Lean list of objects in list order;
  every object carries its own address.  An object exists exactly as long as
  it is linked in that list: `new` puts it there and `delete` in `sweep`
  removes it.
* The anonymous union of `_Object` is kept as three separate fields `value`,
  `head`, `tail`; the code only reads `value` of an `OBJ_INT` and `head`,
  `tail` of an `OBJ_PAIR`.
* The root stack is the array `stack` (a function on slot indices, of which
  only `0 .. STACK_MAX - 1` exist) together with `stackSize`.
* `int` is `Int`; every `int` result is checked against the 32 bit range, a
  result outside of it is undefined behaviour in C++ and is `Err.ub` here, as
  is the use of a pointer to no object and an array access out of bounds.
  `sampleAssert` failing (`exit(1)`) is `Err.stackOverflow` or
  `Err.stackUnderflow`.
* Functions that change the VM return the new VM inside `Except Err`.
-/

namespace TinyGC

/-! ## Data model -/

/-- Addresses of heap objects; the null pointer is `0`. -/
abbrev Addr := Nat

/-- The null pointer. -/
def NULL : Addr := 0

/-- The enum `ObjectType`. -/
inductive ObjectType where
  | OBJ_INT
  | OBJ_PAIR
deriving DecidableEq, Repr

/-- The ways a run of the program stops without a result. -/
inductive Err where
  /-- `sampleAssert(vm->stackSize < STACK_MAX, ...)` failed in `push`. -/
  | stackOverflow
  /-- `sampleAssert(vm->stackSize > 0, ...)` failed in `pop`. -/
  | stackUnderflow
  /-- Undefined behaviour: a pointer to no object was dereferenced, the stack
  array was indexed out of bounds, or an `int` computation overflowed. -/
  | ub
  /-- The address handed to `newObject` is not one `new` can return. -/
  | badAlloc
  /-- The recursion budget of `markFuel` was used up. -/
  | fuel
deriving DecidableEq, Repr

/-- The struct `_Object`, with its own address `addr`; the `next` pointer is
the position in the registry list. -/
structure _Object where
  addr : Addr
  type : ObjectType
  marked : Nat
  value : Int
  head : Addr
  tail : Addr
deriving DecidableEq, Repr

/-- The constant `STACK_MAX`. -/
def STACK_MAX : Int := 256

/-- The struct `VM`; `head` is the registry list that starts at `vm->head`. -/
structure VM where
  stack : Nat → Addr
  stackSize : Int
  head : List _Object
  numAllocatedObj : Int
  maxGCCapacity : Int

/-- Smallest value of a 32 bit `int`. -/
def INT_MIN : Int := -2147483648

/-- Largest value of a 32 bit `int`. -/
def INT_MAX : Int := 2147483647

/-- The result of an `int` computation: defined only inside the range. -/
def checkInt (x : Int) : Except Err Int :=
  if INT_MIN ≤ x ∧ x ≤ INT_MAX then .ok x else .error .ub

/-- The object a pointer refers to: the first object of the registry with
that address. -/
def lookup (h : List _Object) (a : Addr) : Option _Object :=
  h.find? (fun o => decide (o.addr = a))

/-- The addresses of the objects of a registry, in list order. -/
def addrs (h : List _Object) : List Addr :=
  h.map (fun o => o.addr)

/-- The assignment `obj->marked = 1` through the pointer `a`. -/
def setMarked (h : List _Object) (a : Addr) : List _Object :=
  h.map (fun o => if o.addr = a then { o with marked := 1 } else o)

/-- The assignment `obj->value = v` through the pointer `a`. -/
def setValue (h : List _Object) (a : Addr) (v : Int) : List _Object :=
  h.map (fun o => if o.addr = a then { o with value := v } else o)

/-- The assignment `obj->head = p` through the pointer `a`. -/
def setHead (h : List _Object) (a : Addr) (p : Addr) : List _Object :=
  h.map (fun o => if o.addr = a then { o with head := p } else o)

/-- The assignment `obj->tail = p` through the pointer `a`. -/
def setTail (h : List _Object) (a : Addr) (p : Addr) : List _Object :=
  h.map (fun o => if o.addr = a then { o with tail := p } else o)

/-- Number of objects of a registry whose flag is clear. -/
def unmarkedCount (h : List _Object) : Nat :=
  (h.filter (fun o => decide (o.marked = 0))).length

/-! ## Operations -/

/-- The function `newVM`; `new VM()` zeroes the stack array. -/
def newVM : VM :=
  { stack := fun _ => NULL
    stackSize := 0
    head := []
    numAllocatedObj := 0
    maxGCCapacity := 8 }

/-- The function `push`. -/
def push (vm : VM) (value : Addr) : Except Err VM :=
  if ¬ (vm.stackSize < STACK_MAX) then .error .stackOverflow
  else if vm.stackSize < 0 then .error .ub
  else .ok { vm with
    stack := Function.update vm.stack vm.stackSize.toNat value
    stackSize := vm.stackSize + 1 }

/-- The function `pop`: the new VM and the pointer returned. -/
def pop (vm : VM) : Except Err (VM × Addr) :=
  if ¬ (vm.stackSize > 0) then .error .stackUnderflow
  else if STACK_MAX ≤ vm.stackSize - 1 then .error .ub
  else .ok ({ vm with stackSize := vm.stackSize - 1 }, vm.stack (vm.stackSize - 1).toNat)

/-- The function `mark` on the registry `h`, with a budget for the depth of
the recursion. -/
def markFuel : Nat → List _Object → Addr → Except Err (List _Object)
  | 0, _, _ => .error .fuel
  | fuel + 1, h, obj =>
    match lookup h obj with
    | none => .error .ub
    | some o =>
      if o.marked ≠ 0 then .ok h
      else
        if o.type = ObjectType.OBJ_PAIR then
          match markFuel fuel (setMarked h obj) o.head with
          | .error e => .error e
          | .ok h2 => markFuel fuel h2 o.tail
        else .ok (setMarked h obj)

/-- The function `mark`: the budget is one more than the number of objects
whose flag is clear, which the recursion cannot exceed. -/
def mark (h : List _Object) (obj : Addr) : Except Err (List _Object) :=
  markFuel (unmarkedCount h + 1) h obj

/-- The loop of `markAll` over the slot indices `is`. -/
def markAllLoop (stack : Nat → Addr) : List Nat → List _Object → Except Err (List _Object)
  | [], h => .ok h
  | i :: is, h =>
    if STACK_MAX ≤ (i : Int) then .error .ub
    else
      match mark h (stack i) with
      | .error e => .error e
      | .ok h2 => markAllLoop stack is h2

/-- The function `markAll`: `i` runs from `0` while `i < vm->stackSize`. -/
def markAll (vm : VM) : Except Err VM :=
  match markAllLoop vm.stack (List.range vm.stackSize.toNat) vm.head with
  | .error e => .error e
  | .ok h => .ok { vm with head := h }

/-- The loop of `sweep` from the link `obj` on: the list that remains from
there and the counter. -/
def sweepLoop : List _Object → Int → Except Err (List _Object × Int)
  | [], n => .ok ([], n)
  | o :: rest, n =>
    if o.marked = 0 then
      match checkInt (n - 1) with
      | .error e => .error e
      | .ok n2 => sweepLoop rest n2
    else
      match sweepLoop rest n with
      | .error e => .error e
      | .ok (r, n2) => .ok ({ o with marked := 0 } :: r, n2)

/-- The function `sweep`. -/
def sweep (vm : VM) : Except Err VM :=
  match sweepLoop vm.head vm.numAllocatedObj with
  | .error e => .error e
  | .ok (l, n) => .ok { vm with head := l, numAllocatedObj := n }

/-- The function `gc`, with the two numbers it prints: how many objects were
collected and how many remain. -/
def gcReport (vm : VM) : Except Err (VM × Int × Int) :=
  match markAll vm with
  | .error e => .error e
  | .ok vm1 =>
    match sweep vm1 with
    | .error e => .error e
    | .ok vm2 =>
      match checkInt (vm2.numAllocatedObj * 2) with
      | .error e => .error e
      | .ok cap =>
        match checkInt (vm.numAllocatedObj - vm2.numAllocatedObj) with
        | .error e => .error e
        | .ok collected =>
          .ok ({ vm2 with maxGCCapacity := cap }, collected, vm2.numAllocatedObj)

/-- The function `gc`: the VM it leaves. -/
def gc (vm : VM) : Except Err VM :=
  match gcReport vm with
  | .error e => .error e
  | .ok r => .ok r.1

/-- The function `newObject`; `a` is the address `new _Object()` returns, and
the result is the new VM, the pointer returned being `a`.  `new` returns
neither null nor the address of an object that exists; `new _Object()`
zeroes the object. -/
def newObject (vm : VM) (type : ObjectType) (a : Addr) : Except Err VM :=
  match (if vm.numAllocatedObj = vm.maxGCCapacity then gc vm else .ok vm) with
  | .error e => .error e
  | .ok vm1 =>
    if a = NULL ∨ a ∈ addrs vm1.head then .error .badAlloc
    else
      match checkInt (vm1.numAllocatedObj + 1) with
      | .error e => .error e
      | .ok n =>
        .ok { vm1 with
          head := { addr := a, type := type, marked := 0, value := 0,
                    head := NULL, tail := NULL } :: vm1.head
          numAllocatedObj := n }

/-- The function `pushInt`, `a` being the address of the new object. -/
def pushInt (vm : VM) (a : Addr) (intValue : Int) : Except Err VM :=
  match newObject vm ObjectType.OBJ_INT a with
  | .error e => .error e
  | .ok vm1 => push { vm1 with head := setValue vm1.head a intValue } a

/-- The function `pushPair`, `a` being the address of the new object: the
new VM and the pointer returned. -/
def pushPair (vm : VM) (a : Addr) : Except Err (VM × Addr) :=
  match newObject vm ObjectType.OBJ_PAIR a with
  | .error e => .error e
  | .ok vm1 =>
    match pop vm1 with
    | .error e => .error e
    | .ok (vm2, t) =>
      match pop { vm2 with head := setTail vm2.head a t } with
      | .error e => .error e
      | .ok (vm3, hd) =>
        match push { vm3 with head := setHead vm3.head a hd } a with
        | .error e => .error e
        | .ok vm4 => .ok (vm4, a)

/-- The function `freeVM`: the VM as it is when `delete(vm)` is reached. -/
def freeVM (vm : VM) : Except Err VM :=
  gc { vm with stackSize := 0 }

/-! ## Operation sequences -/

/-- What the driver can do to a VM: the four operations the tests use, with
the address `new` returns where an object is made, and the assignment of a
pair's `head` or `tail` as in `test4`. -/
inductive Op where
  | pushInt (a : Addr) (intValue : Int)
  | pushPair (a : Addr)
  | pop
  | gc
  | assignHead (p q : Addr)
  | assignTail (p q : Addr)
deriving DecidableEq, Repr

/-- One operation of the driver.  An assignment `p->head = q` or
`p->tail = q` is run only for a pair `p` and an object `q` that are both in
the registry. -/
def step (vm : VM) : Op → Except Err VM
  | .pushInt a v => pushInt vm a v
  | .pushPair a =>
    match pushPair vm a with
    | .error e => .error e
    | .ok r => .ok r.1
  | .pop =>
    match pop vm with
    | .error e => .error e
    | .ok r => .ok r.1
  | .gc => gc vm
  | .assignHead p q =>
    match lookup vm.head p with
    | none => .error .ub
    | some o =>
      if o.type = ObjectType.OBJ_PAIR ∧ q ∈ addrs vm.head then
        .ok { vm with head := setHead vm.head p q }
      else .error .ub
  | .assignTail p q =>
    match lookup vm.head p with
    | none => .error .ub
    | some o =>
      if o.type = ObjectType.OBJ_PAIR ∧ q ∈ addrs vm.head then
        .ok { vm with head := setTail vm.head p q }
      else .error .ub

/-- A sequence of operations, run from `vm`. -/
def run : VM → List Op → Except Err VM
  | vm, [] => .ok vm
  | vm, op :: ops =>
    match step vm op with
    | .error e => .error e
    | .ok vm1 => run vm1 ops

/-- The VM states that a sequence of operations reaches from `newVM()`. -/
def ReachableState (vm : VM) : Prop :=
  ∃ ops, run newVM ops = .ok vm

/-! ## The scenarios of the test functions -/

/-- The operations of `test1`. -/
def test1Ops : List Op :=
  [.pushInt 1 1, .pushInt 2 2, .gc]

/-- The operations of `test2`, with the addresses `new` hands out. -/
def test2Ops : List Op :=
  [.pushInt 1 1, .pushInt 2 2, .pop, .pop, .gc]

/-- The operations of `test3`. -/
def test3Ops : List Op :=
  [.pushInt 1 1, .pushInt 2 2, .pushPair 3, .pushInt 4 3, .pushInt 5 4, .pushPair 6,
   .pushPair 7, .gc]

/-- The operations of `test4` up to the cycle `a->tail = b; b->tail = a`. -/
def test4Ops : List Op :=
  [.pushInt 1 1, .pushInt 2 2, .pushPair 3, .pushInt 4 3, .pushInt 5 4, .pushPair 6,
   .assignTail 3 6, .assignTail 6 3]

/-- The state of `test4` before its call of `gc`: the pairs at 3 and 6 are
the roots and form a cycle, the scalars at 2 and 5 are detached. -/
def cycleVM : VM :=
  { stack := fun i => if i = 0 then 3 else if i = 1 then 6 else NULL
    stackSize := 2
    head :=
      [ { addr := 6, type := .OBJ_PAIR, marked := 0, value := 0, head := 4, tail := 3 },
        { addr := 5, type := .OBJ_INT, marked := 0, value := 4, head := NULL, tail := NULL },
        { addr := 4, type := .OBJ_INT, marked := 0, value := 3, head := NULL, tail := NULL },
        { addr := 3, type := .OBJ_PAIR, marked := 0, value := 0, head := 1, tail := 6 },
        { addr := 2, type := .OBJ_INT, marked := 0, value := 2, head := NULL, tail := NULL },
        { addr := 1, type := .OBJ_INT, marked := 0, value := 1, head := NULL, tail := NULL } ]
    numAllocatedObj := 6
    maxGCCapacity := 8 }

/-- A state with two stale objects and an empty root stack, as in `test2`
before its call of `gc`. -/
def idleVM : VM :=
  { stack := fun i => if i = 0 then 1 else if i = 1 then 2 else NULL
    stackSize := 0
    head :=
      [ { addr := 2, type := .OBJ_INT, marked := 0, value := 2, head := NULL, tail := NULL },
        { addr := 1, type := .OBJ_INT, marked := 0, value := 1, head := NULL, tail := NULL } ]
    numAllocatedObj := 2
    maxGCCapacity := 8 }

/-- A state whose flags are not clear: the object at 1 is unreachable with
its flag set, the roots at 2 and 3 have the flags 0 and 7. -/
def dirtyVM : VM :=
  { stack := fun i => if i = 0 then 2 else if i = 1 then 3 else NULL
    stackSize := 2
    head :=
      [ { addr := 3, type := .OBJ_INT, marked := 7, value := 30, head := NULL, tail := NULL },
        { addr := 2, type := .OBJ_INT, marked := 0, value := 20, head := NULL, tail := NULL },
        { addr := 1, type := .OBJ_INT, marked := 1, value := 10, head := NULL, tail := NULL } ]
    numAllocatedObj := 3
    maxGCCapacity := 8 }

/-- A registry of one pair whose `head` and `tail` point to itself. -/
def selfPair : List _Object :=
  [ { addr := 1, type := .OBJ_PAIR, marked := 0, value := 0, head := 1, tail := 1 } ]

/-! ## Specification vocabulary -/

/-- The pointer `a` is in an occupied slot of the root stack. -/
def IsRoot (vm : VM) (a : Addr) : Prop :=
  ∃ i : Nat, (i : Int) < vm.stackSize ∧ vm.stack i = a

/-- The object at `a` is a pair whose `head` or `tail` is `b`. -/
def Links (h : List _Object) (a b : Addr) : Prop :=
  ∃ o, lookup h a = some o ∧ o.type = ObjectType.OBJ_PAIR ∧ (o.head = b ∨ o.tail = b)

/-- The pointer `a` is reached from an occupied root slot by following pair
links zero or more times. -/
def Reachable (vm : VM) (a : Addr) : Prop :=
  ∃ r, IsRoot vm r ∧ Relation.ReflTransGen (Links vm.head) r a

/-- Every object of the registry has its flag clear. -/
def AllUnmarked (h : List _Object) : Prop :=
  ∀ o ∈ h, o.marked = 0

/-- The links of every pair of the registry point into the registry. -/
def LinksClosed (h : List _Object) : Prop :=
  ∀ o ∈ h, o.type = ObjectType.OBJ_PAIR → o.head ∈ addrs h ∧ o.tail ∈ addrs h

/-- Every pair link that `mark` can follow leads to an object of the
registry. -/
def LinksValid (h : List _Object) : Prop :=
  ∀ a b, Links h a b → b ∈ addrs h

/-- The occupied root slots and all pair links point into the registry. -/
def Closed (vm : VM) : Prop :=
  (∀ a, IsRoot vm a → a ∈ addrs vm.head) ∧ LinksClosed vm.head

/-- The counter `numAllocatedObj` is the number of objects in the registry. -/
def Consistent (vm : VM) : Prop :=
  vm.numAllocatedObj = (vm.head.length : Int)

/-- The object at `a` exists and its flag is set. -/
def MarkedAt (h : List _Object) (a : Addr) : Prop :=
  ∃ o, lookup h a = some o ∧ o.marked ≠ 0

/-- The registry after `obj->marked = 1` was run at every address of `s`. -/
def markSet (s : List Addr) (h : List _Object) : List _Object :=
  h.map (fun o => if o.addr ∈ s then { o with marked := 1 } else o)

/-- The addresses at which a call of `mark` runs `obj->marked = 1`, in the
order of execution: the trace of flag writes of `markFuel`. -/
def markWrites : Nat → List _Object → Addr → List Addr
  | 0, _, _ => []
  | fuel + 1, h, obj =>
    match lookup h obj with
    | none => []
    | some o =>
      if o.marked ≠ 0 then []
      else
        if o.type = ObjectType.OBJ_PAIR then
          match markFuel fuel (setMarked h obj) o.head with
          | .error _ => obj :: markWrites fuel (setMarked h obj) o.head
          | .ok h2 =>
            obj :: (markWrites fuel (setMarked h obj) o.head ++ markWrites fuel h2 o.tail)
        else [obj]

/-- The trace of flag writes of the loop of `markAll`. -/
def markAllWrites (stack : Nat → Addr) : List Nat → List _Object → List Addr
  | [], _ => []
  | i :: is, h =>
    if STACK_MAX ≤ (i : Int) then []
    else
      match mark h (stack i) with
      | .error _ => markWrites (unmarkedCount h + 1) h (stack i)
      | .ok h2 => markWrites (unmarkedCount h + 1) h (stack i) ++ markAllWrites stack is h2

/-- A state in which `gc` runs without undefined behaviour: the pointers it
follows are valid, the stack fits its array, and the counter is the number of
objects and small enough to be doubled. -/
def GcReady (vm : VM) : Prop :=
  Closed vm ∧ vm.stackSize ≤ STACK_MAX ∧ Consistent vm ∧ (vm.head.length : Int) * 2 ≤ INT_MAX

/-- What holds of the VM between two operations of the driver. -/
structure Inv (vm : VM) : Prop where
  /-- All flags are clear. -/
  unmarked : AllUnmarked vm.head
  /-- No root and no pair link dangles. -/
  closed : Closed vm
  /-- The counter is the number of objects. -/
  consistent : Consistent vm
  /-- The stack size is within the array. -/
  size : 0 ≤ vm.stackSize ∧ vm.stackSize ≤ STACK_MAX
  /-- Distinct objects have distinct addresses. -/
  nodup : (addrs vm.head).Nodup
  /-- No object is at the null address. -/
  nonnull : NULL ∉ addrs vm.head
  /-- The counter is a value of `int`. -/
  counter : vm.numAllocatedObj ≤ INT_MAX

/-- The state of `test3` before its last `pushPair`: the pairs at 3 and 6 are
on the stack. -/
def test3Pre : VM :=
  match run newVM [.pushInt 1 1, .pushInt 2 2, .pushPair 3, .pushInt 4 3, .pushInt 5 4,
      .pushPair 6] with
  | .ok vm => vm
  | .error _ => newVM

/-- The state after eight calls of `pushInt` from `newVM()`: the counter has
reached the threshold 8, so the next allocation collects first. -/
def fullVM : VM :=
  match run newVM [.pushInt 1 10, .pushInt 2 20, .pushInt 3 30, .pushInt 4 40, .pushInt 5 50,
      .pushInt 6 60, .pushInt 7 70, .pushInt 8 80] with
  | .ok vm => vm
  | .error _ => newVM

/-- The object at `a` exists and its flag is clear. -/
def UnmarkedAt (h : List _Object) (a : Addr) : Prop :=
  ∃ o, lookup h a = some o ∧ o.marked = 0

/-- What a marking run from the pointers `rs` has done when it took the
registry `h` to `h2` with the flag writes `w`. -/
structure MarkPost (h : List _Object) (rs : List Addr) (w : List Addr)
    (h2 : List _Object) : Prop where
  /-- Only flags changed, and exactly those at the addresses written. -/
  heap : h2 = markSet w h
  /-- Every write hit an object whose flag was clear. -/
  fresh : ∀ b ∈ w, UnmarkedAt h b
  /-- No address was written twice. -/
  nodup : w.Nodup
  /-- Every address written is reached from one of the start pointers. -/
  reach : ∀ b ∈ w, ∃ r ∈ rs, Relation.ReflTransGen (Links h) r b
  /-- The start pointers are marked afterwards. -/
  root : ∀ r ∈ rs, MarkedAt h2 r
  /-- What an object written links to is marked afterwards. -/
  closure : ∀ b ∈ w, ∀ c, Links h b c → MarkedAt h2 c

/-- Calls of `push`, one for each pointer of the list, in order. -/
def pushAll : VM → List Addr → Except Err VM
  | vm, [] => .ok vm
  | vm, x :: xs =>
    match push vm x with
    | .error e => .error e
    | .ok vm1 => pushAll vm1 xs

/-- A run that collects with nothing allocated and then allocates once. -/
def idleThenAllocOps : List Op :=
  [.gc, .pushInt 1 1]

/-- The operations of `test2` followed by ten rounds of `pushInt` and `pop`:
every object made after the collection is garbage at once. -/
def garbageOps : List Op :=
  test2Ops ++
  [.pushInt 3 0, .pop, .pushInt 4 0, .pop, .pushInt 5 0, .pop, .pushInt 6 0, .pop,
   .pushInt 7 0, .pop, .pushInt 8 0, .pop, .pushInt 9 0, .pop, .pushInt 10 0, .pop,
   .pushInt 11 0, .pop, .pushInt 12 0, .pop]

/-- A pair link from `a` to an object `b` whose flag is clear. -/
def UStep (h : List _Object) (a b : Addr) : Prop :=
  Links h a b ∧ UnmarkedAt h b

/-- The pointer `b` is in the closure of `a` through objects whose flag is
clear: a chain of pair links leads from `a` to `b`, and every object on it,
`a` and `b` included, has its flag clear. -/
def UnmarkedReach (h : List _Object) (a b : Addr) : Prop :=
  UnmarkedAt h a ∧ Relation.ReflTransGen (UStep h) a b

/-- The greatest number of calls of `mark` that are active at once during
the call `mark(obj)`, this call included; a call that returns at its guard
counts as one. -/
def markDepth : Nat → List _Object → Addr → Nat
  | 0, _, _ => 0
  | fuel + 1, h, obj =>
    match lookup h obj with
    | none => 1
    | some o =>
      if o.marked ≠ 0 then 1
      else
        if o.type = ObjectType.OBJ_PAIR then
          match markFuel fuel (setMarked h obj) o.head with
          | .error _ => 1 + markDepth fuel (setMarked h obj) o.head
          | .ok h2 =>
            1 + max (markDepth fuel (setMarked h obj) o.head) (markDepth fuel h2 o.tail)
        else 1

/-- The greatest nesting depth of calls of `mark` in the loop of `markAll`. -/
def markAllDepth (stack : Nat → Addr) : List Nat → List _Object → Nat
  | [], _ => 0
  | i :: is, h =>
    if STACK_MAX ≤ (i : Int) then 0
    else
      match mark h (stack i) with
      | .error _ => markDepth (unmarkedCount h + 1) h (stack i)
      | .ok h2 => max (markDepth (unmarkedCount h + 1) h (stack i)) (markAllDepth stack is h2)

/-- A simple path of the object graph that starts at a root: the addresses
of distinct registry objects, the first in an occupied root slot, each
linked to the next as `head` or `tail` of a pair. -/
def RootPath (vm : VM) (p : List Addr) : Prop :=
  (∃ r, p.head? = some r ∧ IsRoot vm r) ∧ p.Nodup ∧ List.Chain' (Links vm.head) p
    ∧ ∀ x ∈ p, x ∈ addrs vm.head

/-- The number `n` of objects on a longest simple path from a root. -/
def LongestRootPath (vm : VM) (n : Nat) : Prop :=
  (∃ p, RootPath vm p ∧ p.length = n) ∧ ∀ p, RootPath vm p → p.length ≤ n

/-- Operations that leave the scalar at 1 and the pairs at 4, 7 and 10 on the
stack, in this order, each pair pointing twice to the object below it. -/
def shallowOps : List Op :=
  [.pushInt 1 0, .pushInt 2 0, .pushInt 3 0, .pushPair 4, .assignHead 4 1, .assignTail 4 1,
   .pushInt 5 0, .pushInt 6 0, .pushPair 7, .assignHead 7 4, .assignTail 7 4,
   .pushInt 8 0, .pushInt 9 0, .pushPair 10, .assignHead 10 7, .assignTail 10 7, .gc]

/-- The state `shallowOps` reaches: the chain 10, 7, 4, 1 with every object
of it a root, the deepest first. -/
def shallowVM : VM :=
  match run newVM shallowOps with
  | .ok vm => vm
  | .error _ => newVM

/-- A state whose only object is a pair that points to itself, on the
stack. -/
def selfVM : VM :=
  { stack := fun i => if i = 0 then 1 else NULL
    stackSize := 1
    head := selfPair
    numAllocatedObj := 1
    maxGCCapacity := 8 }

/-! ## Lookup and flag updates -/

theorem lookup_some_mem {h : List _Object} {a : Addr} {o : _Object}
    (hl : lookup h a = some o) : o ∈ h ∧ o.addr = a := by
  unfold lookup at hl
  have h1 := List.mem_of_find?_eq_some hl
  have h2 := List.find?_some hl
  exact ⟨h1, by simpa using h2⟩

theorem lookup_isSome_of_mem {h : List _Object} {a : Addr} (ha : a ∈ addrs h) :
    ∃ o, lookup h a = some o := by
  induction h with
  | nil => simp [addrs] at ha
  | cons x xs ih =>
    by_cases hx : x.addr = a
    · exact ⟨x, by simp [lookup, List.find?_cons, hx]⟩
    · have : a ∈ addrs xs := by
        simp only [addrs, List.map_cons, List.mem_cons] at ha
        rcases ha with ha | ha
        · exact absurd ha.symm hx
        · exact ha
      obtain ⟨o, ho⟩ := ih this
      exact ⟨o, by simpa [lookup, List.find?_cons, hx] using ho⟩

theorem mem_addrs_of_lookup {h : List _Object} {a : Addr} {o : _Object}
    (hl : lookup h a = some o) : a ∈ addrs h := by
  obtain ⟨hm, ha⟩ := lookup_some_mem hl
  exact List.mem_map.mpr ⟨o, hm, ha⟩

theorem mem_addrs_iff {h : List _Object} {a : Addr} :
    a ∈ addrs h ↔ ∃ o ∈ h, o.addr = a := by
  simp [addrs]

theorem lookup_eq_none_iff {h : List _Object} {a : Addr} :
    lookup h a = none ↔ a ∉ addrs h := by
  constructor
  · intro hn ha
    obtain ⟨o, ho⟩ := lookup_isSome_of_mem ha
    rw [hn] at ho
    cases ho
  · intro hn
    cases hl : lookup h a with
    | none => rfl
    | some o => exact absurd (mem_addrs_of_lookup hl) hn

/-- Lookup in a registry whose objects were updated without touching the
addresses. -/
theorem lookup_map_of_addr {f : _Object → _Object} (hf : ∀ o, (f o).addr = o.addr)
    (h : List _Object) (a : Addr) : lookup (h.map f) a = (lookup h a).map f := by
  induction h with
  | nil => rfl
  | cons x xs ih =>
    unfold lookup at ih ⊢
    by_cases hx : x.addr = a
    · simp [List.find?_cons, hf, hx]
    · simp [List.find?_cons, hf, hx, ih]

theorem addrs_map_of_addr {f : _Object → _Object} (hf : ∀ o, (f o).addr = o.addr)
    (h : List _Object) : addrs (h.map f) = addrs h := by
  simp [addrs, List.map_map, Function.comp_def, hf]

theorem markSet_addr (s : List Addr) (o : _Object) :
    (if o.addr ∈ s then { o with marked := 1 } else o : _Object).addr = o.addr := by
  split <;> rfl

theorem setMarked_eq_markSet (h : List _Object) (a : Addr) :
    setMarked h a = markSet [a] h := by
  simp [setMarked, markSet]

theorem markSet_nil (h : List _Object) : markSet [] h = h := by
  simp [markSet]

theorem markSet_markSet (s t : List Addr) (h : List _Object) :
    markSet t (markSet s h) = markSet (s ++ t) h := by
  simp only [markSet, List.map_map]
  apply List.map_congr_left
  intro o _
  simp only [Function.comp]
  by_cases hs : o.addr ∈ s <;> by_cases ht : o.addr ∈ t <;> simp [hs, ht]

theorem addrs_markSet (s : List Addr) (h : List _Object) : addrs (markSet s h) = addrs h :=
  addrs_map_of_addr (markSet_addr s) h

theorem length_markSet (s : List Addr) (h : List _Object) :
    (markSet s h).length = h.length := by
  simp [markSet]

theorem lookup_markSet (s : List Addr) (h : List _Object) (a : Addr) :
    lookup (markSet s h) a
      = (lookup h a).map (fun o => if o.addr ∈ s then { o with marked := 1 } else o) :=
  lookup_map_of_addr (markSet_addr s) h a

theorem links_markSet (s : List Addr) (h : List _Object) (a b : Addr) :
    Links (markSet s h) a b ↔ Links h a b := by
  unfold Links
  rw [lookup_markSet]
  constructor
  · rintro ⟨o, ho, ht, hb⟩
    cases hl : lookup h a with
    | none => rw [hl] at ho; cases ho
    | some o' =>
      rw [hl] at ho
      simp only [Option.map_some', Option.some.injEq] at ho
      refine ⟨o', rfl, ?_, ?_⟩
      · rw [← ho] at ht; split at ht <;> exact ht
      · rw [← ho] at hb; split at hb <;> exact hb
  · rintro ⟨o, ho, ht, hb⟩
    rw [ho]
    refine ⟨_, rfl, ?_, ?_⟩
    · dsimp only; split <;> exact ht
    · dsimp only; split <;> exact hb

theorem linksClosed_markSet (s : List Addr) (h : List _Object) :
    LinksClosed (markSet s h) ↔ LinksClosed h := by
  unfold LinksClosed
  rw [addrs_markSet]
  constructor
  · intro hc o ho ht
    have := hc (if o.addr ∈ s then { o with marked := 1 } else o)
      (List.mem_map.mpr ⟨o, ho, rfl⟩)
    by_cases hs : o.addr ∈ s
    · rw [if_pos hs] at this; exact this ht
    · rw [if_neg hs] at this; exact this ht
  · intro hc o ho ht
    obtain ⟨o', ho', rfl⟩ := List.mem_map.mp ho
    by_cases hs : o'.addr ∈ s
    · rw [if_pos hs] at ht ⊢; exact hc o' ho' ht
    · rw [if_neg hs] at ht ⊢; exact hc o' ho' ht

theorem markedAt_markSet (s : List Addr) (h : List _Object) (a : Addr) :
    MarkedAt (markSet s h) a ↔ a ∈ addrs h ∧ (a ∈ s ∨ MarkedAt h a) := by
  unfold MarkedAt
  rw [lookup_markSet]
  constructor
  · rintro ⟨o, ho, hm⟩
    cases hl : lookup h a with
    | none => rw [hl] at ho; cases ho
    | some o' =>
      rw [hl] at ho
      simp only [Option.map_some', Option.some.injEq] at ho
      have ha := (lookup_some_mem hl).2
      refine ⟨mem_addrs_of_lookup hl, ?_⟩
      by_cases hs : a ∈ s
      · exact Or.inl hs
      · right
        rw [ha, if_neg hs] at ho
        exact ⟨o', rfl, by rw [ho]; exact hm⟩
  · rintro ⟨ha, hs⟩
    obtain ⟨o, ho⟩ := lookup_isSome_of_mem ha
    have hoa := (lookup_some_mem ho).2
    rw [ho]
    refine ⟨_, rfl, ?_⟩
    rcases hs with hs | ⟨o', ho', hm⟩
    · dsimp only; rw [hoa, if_pos hs]; simp
    · rw [ho] at ho'
      cases ho'
      dsimp only
      split
      · simp
      · exact hm

theorem markedAt_mono (s : List Addr) {h : List _Object} {a : Addr} (hm : MarkedAt h a) :
    MarkedAt (markSet s h) a := by
  rw [markedAt_markSet]
  obtain ⟨o, ho, _⟩ := hm
  exact ⟨mem_addrs_of_lookup ho, Or.inr ⟨o, ho, ‹_›⟩⟩

/-! ## The marking postcondition -/

theorem unmarkedAt_markSet (s : List Addr) (h : List _Object) (a : Addr) :
    UnmarkedAt (markSet s h) a ↔ a ∉ s ∧ UnmarkedAt h a := by
  unfold UnmarkedAt
  rw [lookup_markSet]
  cases hl : lookup h a with
  | none => simp
  | some o =>
    have ha := (lookup_some_mem hl).2
    simp only [Option.map_some', Option.some.injEq, exists_eq_left']
    by_cases hs : a ∈ s
    · simp [ha, hs]
    · simp [ha, hs]

theorem not_unmarkedAt_of_markedAt {h : List _Object} {a : Addr} (hm : MarkedAt h a) :
    ¬ UnmarkedAt h a := by
  rintro ⟨o, ho, h0⟩
  obtain ⟨o', ho', h1⟩ := hm
  rw [ho] at ho'
  cases ho'
  exact h1 h0

theorem links_markSet_eq (s : List Addr) (h : List _Object) :
    Links (markSet s h) = Links h := by
  funext a b
  exact propext (links_markSet s h a b)

theorem MarkPost.nil (h : List _Object) : MarkPost h [] [] h where
  heap := (markSet_nil h).symm
  fresh := by simp
  nodup := List.nodup_nil
  reach := by simp
  root := by simp
  closure := by simp

theorem MarkPost.append {h h1 h2 : List _Object} {rs rs2 w1 w2 : List Addr}
    (p1 : MarkPost h rs w1 h1) (p2 : MarkPost h1 rs2 w2 h2) :
    MarkPost h (rs ++ rs2) (w1 ++ w2) h2 where
  heap := by rw [p2.heap, p1.heap, markSet_markSet]
  fresh := by
    intro b hb
    rcases List.mem_append.mp hb with hb | hb
    · exact p1.fresh b hb
    · have := p2.fresh b hb
      rw [p1.heap, unmarkedAt_markSet] at this
      exact this.2
  nodup := by
    refine List.Nodup.append p1.nodup p2.nodup ?_
    intro b hb1 hb2
    have := p2.fresh b hb2
    rw [p1.heap, unmarkedAt_markSet] at this
    exact this.1 hb1
  reach := by
    intro b hb
    rcases List.mem_append.mp hb with hb | hb
    · obtain ⟨r, hr, hp⟩ := p1.reach b hb
      exact ⟨r, List.mem_append_left _ hr, hp⟩
    · obtain ⟨r, hr, hp⟩ := p2.reach b hb
      rw [p1.heap, links_markSet_eq] at hp
      exact ⟨r, List.mem_append_right _ hr, hp⟩
  root := by
    intro r hr
    rcases List.mem_append.mp hr with hr | hr
    · rw [p2.heap]
      exact markedAt_mono w2 (p1.root r hr)
    · exact p2.root r hr
  closure := by
    intro b hb c hl
    rcases List.mem_append.mp hb with hb | hb
    · rw [p2.heap]
      exact markedAt_mono w2 (p1.closure b hb c hl)
    · apply p2.closure b hb c
      rw [p1.heap, links_markSet]
      exact hl

theorem MarkPost.marked {h : List _Object} {a : Addr} (hm : MarkedAt h a) :
    MarkPost h [a] [] h where
  heap := (markSet_nil h).symm
  fresh := by simp
  nodup := List.nodup_nil
  reach := by simp
  root := by
    intro r hr
    rw [List.mem_singleton] at hr
    rw [hr]
    exact hm
  closure := by simp

theorem MarkPost.single {h : List _Object} {a : Addr} {o : _Object}
    (hl : lookup h a = some o) (hm : o.marked = 0) (ht : o.type ≠ ObjectType.OBJ_PAIR) :
    MarkPost h [a] [a] (markSet [a] h) where
  heap := rfl
  fresh := by
    intro b hb
    rw [List.mem_singleton] at hb
    rw [hb]
    exact ⟨o, hl, hm⟩
  nodup := List.nodup_singleton a
  reach := by
    intro b hb
    exact ⟨a, List.mem_singleton.mpr rfl, by rw [List.mem_singleton.mp hb]⟩
  root := by
    intro r hr
    rw [List.mem_singleton] at hr
    rw [hr, markedAt_markSet]
    exact ⟨mem_addrs_of_lookup hl, Or.inl (List.mem_singleton.mpr rfl)⟩
  closure := by
    intro b hb c hlk
    rw [List.mem_singleton] at hb
    obtain ⟨o', ho', ht', _⟩ := hlk
    rw [hb, hl] at ho'
    cases ho'
    exact absurd ht' ht

theorem MarkPost.pair {h h2 : List _Object} {a : Addr} {o : _Object} {w : List Addr}
    (hl : lookup h a = some o) (hm : o.marked = 0) (ht : o.type = ObjectType.OBJ_PAIR)
    (p : MarkPost (markSet [a] h) [o.head, o.tail] w h2) :
    MarkPost h [a] (a :: w) h2 where
  heap := by rw [p.heap, markSet_markSet]; rfl
  fresh := by
    intro b hb
    rcases List.mem_cons.mp hb with hb | hb
    · rw [hb]; exact ⟨o, hl, hm⟩
    · have := p.fresh b hb
      rw [unmarkedAt_markSet] at this
      exact this.2
  nodup := by
    refine List.nodup_cons.mpr ⟨?_, p.nodup⟩
    intro ha
    have := p.fresh a ha
    rw [unmarkedAt_markSet] at this
    exact this.1 (List.mem_singleton.mpr rfl)
  reach := by
    intro b hb
    refine ⟨a, List.mem_singleton.mpr rfl, ?_⟩
    rcases List.mem_cons.mp hb with hb | hb
    · rw [hb]
    · obtain ⟨r, hr, hp⟩ := p.reach b hb
      rw [links_markSet_eq] at hp
      refine Relation.ReflTransGen.head ⟨o, hl, ht, ?_⟩ hp
      simp only [List.mem_cons, List.mem_singleton, List.not_mem_nil, or_false] at hr
      rcases hr with hr | hr
      · exact Or.inl hr.symm
      · exact Or.inr hr.symm
  root := by
    intro r hr
    rw [List.mem_singleton] at hr
    rw [hr, p.heap, markSet_markSet, markedAt_markSet]
    exact ⟨mem_addrs_of_lookup hl, Or.inl (by simp)⟩
  closure := by
    intro b hb c hlk
    rcases List.mem_cons.mp hb with hb | hb
    · obtain ⟨o', ho', _, hc⟩ := hlk
      rw [hb, hl] at ho'
      cases ho'
      apply p.root
      rcases hc with hc | hc
      · simp [hc]
      · simp [hc]
    · apply p.closure b hb c
      rw [links_markSet]
      exact hlk

theorem markFuel_post (fuel : Nat) : ∀ (h : List _Object) (a : Addr) (h2 : List _Object),
    markFuel fuel h a = .ok h2 → MarkPost h [a] (markWrites fuel h a) h2 := by
  induction fuel with
  | zero => intro h a h2 hr; simp [markFuel] at hr
  | succ f ih =>
    intro h a h2 hr
    unfold markFuel at hr
    unfold markWrites
    cases hl : lookup h a with
    | none => rw [hl] at hr; simp at hr
    | some o =>
      rw [hl] at hr
      simp only at hr ⊢
      by_cases hm : o.marked ≠ 0
      · rw [if_pos hm] at hr ⊢
        cases hr
        exact MarkPost.marked ⟨o, hl, hm⟩
      · rw [if_neg hm] at hr ⊢
        have hm0 : o.marked = 0 := not_not.mp hm
        by_cases ht : o.type = ObjectType.OBJ_PAIR
        · rw [if_pos ht] at hr ⊢
          cases h1 : markFuel f (setMarked h a) o.head with
          | error e => rw [h1] at hr; simp at hr
          | ok h3 =>
            rw [h1] at hr
            simp only at hr ⊢
            have p1 := ih _ _ _ h1
            have p2 := ih _ _ _ hr
            have p3 := MarkPost.append p1 p2
            simp only [setMarked_eq_markSet] at p3 ⊢
            exact MarkPost.pair hl hm0 ht p3
        · rw [if_neg ht] at hr ⊢
          cases hr
          rw [setMarked_eq_markSet]
          exact MarkPost.single hl hm0 ht

theorem mark_post {h : List _Object} {a : Addr} {h2 : List _Object}
    (hr : mark h a = .ok h2) :
    MarkPost h [a] (markWrites (unmarkedCount h + 1) h a) h2 :=
  markFuel_post _ h a h2 hr

theorem markAllLoop_post (stack : Nat → Addr) (is : List Nat) :
    ∀ (h h2 : List _Object), markAllLoop stack is h = .ok h2 →
      MarkPost h (is.map stack) (markAllWrites stack is h) h2 := by
  induction is with
  | nil =>
    intro h h2 hr
    simp only [markAllLoop, Except.ok.injEq] at hr
    rw [← hr]
    exact MarkPost.nil h
  | cons i is ih =>
    intro h h2 hr
    unfold markAllLoop at hr
    unfold markAllWrites
    by_cases hi : STACK_MAX ≤ (i : Int)
    · rw [if_pos hi] at hr; simp at hr
    · rw [if_neg hi] at hr ⊢
      cases h1 : mark h (stack i) with
      | error e => rw [h1] at hr; simp at hr
      | ok h3 =>
        rw [h1] at hr
        simp only at hr ⊢
        exact MarkPost.append (mark_post h1) (ih _ _ hr)

/-! ## Termination of `mark` and absence of undefined behaviour -/

theorem unmarkedCount_markSet_le (s : List Addr) (h : List _Object) :
    unmarkedCount (markSet s h) ≤ unmarkedCount h := by
  induction h with
  | nil => simp [markSet, unmarkedCount]
  | cons x xs ih =>
    simp only [unmarkedCount, markSet, List.map_cons, List.filter_cons] at ih ⊢
    by_cases hs : x.addr ∈ s
    · simp only [hs, if_true]
      by_cases hx : x.marked = 0
      · simp only [hx, decide_True, if_true, List.length_cons]
        simp
        omega
      · simp [hx]
        omega
    · simp only [hs, if_false]
      by_cases hx : x.marked = 0
      · simp [hx]
        omega
      · simp [hx]
        omega

theorem unmarkedCount_setMarked_lt {h : List _Object} {a : Addr} {o : _Object}
    (hl : lookup h a = some o) (hm : o.marked = 0) :
    unmarkedCount (setMarked h a) < unmarkedCount h := by
  induction h with
  | nil => simp [lookup] at hl
  | cons x xs ih =>
    have hle := unmarkedCount_markSet_le [a] xs
    rw [← setMarked_eq_markSet] at hle
    simp only [unmarkedCount, setMarked, List.map_cons, List.filter_cons] at ih hle ⊢
    by_cases hx : x.addr = a
    · have hxo : x = o := by
        simpa [lookup, List.find?_cons, hx] using hl
      subst hxo
      simp [hx, hm]
      omega
    · have hl2 : lookup xs a = some o := by
        simpa [lookup, List.find?_cons, hx] using hl
      have := ih hl2
      simp only [hx, if_false]
      by_cases hxm : x.marked = 0
      · simp [hxm]
        omega
      · simp [hxm]
        omega

theorem markFuel_ne_fuel (fuel : Nat) : ∀ (h : List _Object) (a : Addr),
    unmarkedCount h < fuel → markFuel fuel h a ≠ .error .fuel := by
  induction fuel with
  | zero => intro h a hlt; omega
  | succ f ih =>
    intro h a hlt
    unfold markFuel
    cases hl : lookup h a with
    | none => simp
    | some o =>
      simp only
      by_cases hm : o.marked ≠ 0
      · rw [if_pos hm]; simp
      · rw [if_neg hm]
        have hm0 : o.marked = 0 := not_not.mp hm
        have hlt1 := unmarkedCount_setMarked_lt hl hm0
        by_cases ht : o.type = ObjectType.OBJ_PAIR
        · rw [if_pos ht]
          have i1 := ih (setMarked h a) o.head (by omega)
          cases h1 : markFuel f (setMarked h a) o.head with
          | error e =>
            simp only
            intro he
            rw [h1] at i1
            exact i1 he
          | ok h3 =>
            simp only
            apply ih
            have := (markFuel_post f _ _ _ h1).heap
            have hle := unmarkedCount_markSet_le (markWrites f (setMarked h a) o.head)
              (setMarked h a)
            rw [← this] at hle
            omega
        · rw [if_neg ht]; simp

theorem markFuel_succ (fuel : Nat) : ∀ (h : List _Object) (a : Addr),
    markFuel fuel h a ≠ .error .fuel → markFuel (fuel + 1) h a = markFuel fuel h a := by
  induction fuel with
  | zero => intro h a hne; simp [markFuel] at hne
  | succ f ih =>
    intro h a hne
    rw [markFuel] at hne ⊢
    conv => rhs; rw [markFuel]
    cases hl : lookup h a with
    | none => rfl
    | some o =>
      rw [hl] at hne
      simp only at hne ⊢
      by_cases hm : o.marked ≠ 0
      · rw [if_pos hm]; rw [if_pos hm]
      · rw [if_neg hm] at hne ⊢
        rw [if_neg hm]
        by_cases ht : o.type = ObjectType.OBJ_PAIR
        · rw [if_pos ht] at hne ⊢
          rw [if_pos ht]
          have e1 : markFuel (f + 1) (setMarked h a) o.head
              = markFuel f (setMarked h a) o.head := by
            apply ih
            intro he
            rw [he] at hne
            exact hne rfl
          rw [e1]
          cases h1 : markFuel f (setMarked h a) o.head with
          | error e => rfl
          | ok h3 =>
            rw [h1] at hne
            simp only at hne ⊢
            exact ih _ _ hne
        · rw [if_neg ht]; rw [if_neg ht]

theorem markFuel_add (k : Nat) (fuel : Nat) (h : List _Object) (a : Addr)
    (hne : markFuel fuel h a ≠ .error .fuel) :
    markFuel (fuel + k) h a = markFuel fuel h a := by
  induction k with
  | zero => rfl
  | succ k ih =>
    rw [← Nat.add_assoc, markFuel_succ _ _ _ (by rw [ih]; exact hne), ih]

theorem markFuel_eq_mark {fuel : Nat} {h : List _Object} (a : Addr)
    (hlt : unmarkedCount h < fuel) : markFuel fuel h a = mark h a := by
  obtain ⟨k, rfl⟩ : ∃ k, fuel = (unmarkedCount h + 1) + k := ⟨fuel - (unmarkedCount h + 1), by omega⟩
  exact markFuel_add k _ h a (markFuel_ne_fuel _ h a (by omega))

theorem linksValid_of_closed {h : List _Object} (hc : LinksClosed h) : LinksValid h := by
  rintro a b ⟨o, hl, ht, hb⟩
  have := hc o (lookup_some_mem hl).1 ht
  rcases hb with hb | hb
  · rw [← hb]; exact this.1
  · rw [← hb]; exact this.2

theorem linksValid_markSet (s : List Addr) (h : List _Object) :
    LinksValid (markSet s h) ↔ LinksValid h := by
  unfold LinksValid
  rw [links_markSet_eq, addrs_markSet]

theorem markFuel_ok_of_closed (fuel : Nat) : ∀ (h : List _Object) (a : Addr),
    LinksValid h → a ∈ addrs h → unmarkedCount h < fuel →
    ∃ h2, markFuel fuel h a = .ok h2 := by
  induction fuel with
  | zero => intro h a _ _ hlt; omega
  | succ f ih =>
    intro h a hc ha hlt
    unfold markFuel
    obtain ⟨o, hl⟩ := lookup_isSome_of_mem ha
    rw [hl]
    simp only
    by_cases hm : o.marked ≠ 0
    · rw [if_pos hm]; exact ⟨h, rfl⟩
    · rw [if_neg hm]
      have hm0 : o.marked = 0 := not_not.mp hm
      have hlt1 := unmarkedCount_setMarked_lt hl hm0
      by_cases ht : o.type = ObjectType.OBJ_PAIR
      · rw [if_pos ht]
        have hoc : o.head ∈ addrs h ∧ o.tail ∈ addrs h :=
          ⟨hc a o.head ⟨o, hl, ht, Or.inl rfl⟩, hc a o.tail ⟨o, hl, ht, Or.inr rfl⟩⟩
        have hc1 : LinksValid (setMarked h a) := by
          rw [setMarked_eq_markSet, linksValid_markSet]; exact hc
        have ha1 : addrs (setMarked h a) = addrs h := by
          rw [setMarked_eq_markSet, addrs_markSet]
        obtain ⟨h3, h1⟩ := ih (setMarked h a) o.head hc1 (by rw [ha1]; exact hoc.1) (by omega)
        rw [h1]
        simp only
        have hp := (markFuel_post f _ _ _ h1).heap
        have hle := unmarkedCount_markSet_le (markWrites f (setMarked h a) o.head)
          (setMarked h a)
        rw [← hp] at hle
        apply ih
        · rw [hp, linksValid_markSet]; exact hc1
        · rw [hp, addrs_markSet, ha1]; exact hoc.2
        · omega
      · rw [if_neg ht]; exact ⟨_, rfl⟩

theorem mark_ok_of_closed {h : List _Object} {a : Addr} (hc : LinksValid h)
    (ha : a ∈ addrs h) : ∃ h2, mark h a = .ok h2 :=
  markFuel_ok_of_closed _ h a hc ha (Nat.lt_succ_self _)

theorem markAllLoop_ok_of_closed (stack : Nat → Addr) (is : List Nat) :
    ∀ (h : List _Object), LinksValid h →
      (∀ i ∈ is, (i : Int) < STACK_MAX ∧ stack i ∈ addrs h) →
      ∃ h2, markAllLoop stack is h = .ok h2 := by
  induction is with
  | nil => intro h _ _; exact ⟨h, rfl⟩
  | cons i is ih =>
    intro h hc his
    unfold markAllLoop
    have hi := his i (List.mem_cons_self _ _)
    rw [if_neg (not_le.mpr hi.1)]
    obtain ⟨h3, h1⟩ := mark_ok_of_closed hc hi.2
    rw [h1]
    simp only
    have hp := (mark_post h1).heap
    apply ih
    · rw [hp, linksValid_markSet]; exact hc
    · intro j hj
      rw [hp, addrs_markSet]
      exact his j (List.mem_cons_of_mem _ hj)

/-! ## `sweep` and `gc` unfolded -/

theorem checkInt_eq_ok {x y : Int} :
    checkInt x = .ok y ↔ (INT_MIN ≤ x ∧ x ≤ INT_MAX) ∧ y = x := by
  unfold checkInt
  by_cases hx : INT_MIN ≤ x ∧ x ≤ INT_MAX
  · rw [if_pos hx]
    simp only [Except.ok.injEq]
    exact ⟨fun e => ⟨hx, e.symm⟩, fun e => e.2.symm⟩
  · rw [if_neg hx]
    simp [hx]

theorem checkInt_of_range {x : Int} (h1 : INT_MIN ≤ x) (h2 : x ≤ INT_MAX) :
    checkInt x = .ok x :=
  checkInt_eq_ok.mpr ⟨⟨h1, h2⟩, rfl⟩

/-- The registry `sweep` leaves: the objects whose flag is set, flags cleared. -/
theorem sweepLoop_spec (h : List _Object) : ∀ (n : Int) (l : List _Object) (n2 : Int),
    sweepLoop h n = .ok (l, n2) →
    l = (h.filter (fun o => decide (o.marked ≠ 0))).map (fun o => { o with marked := 0 })
      ∧ n2 = n - (unmarkedCount h : Int) := by
  induction h with
  | nil =>
    intro n l n2 hr
    simp only [sweepLoop, Except.ok.injEq, Prod.mk.injEq] at hr
    simp [unmarkedCount, hr.1.symm, hr.2.symm]
  | cons x xs ih =>
    intro n l n2 hr
    unfold sweepLoop at hr
    by_cases hx : x.marked = 0
    · rw [if_pos hx] at hr
      cases hc : checkInt (n - 1) with
      | error e => rw [hc] at hr; simp at hr
      | ok m =>
        rw [hc] at hr
        simp only at hr
        obtain ⟨e1, e2⟩ := ih _ _ _ hr
        have hm := (checkInt_eq_ok.mp hc).2
        refine ⟨?_, ?_⟩
        · rw [e1]; simp [List.filter_cons, hx]
        · rw [e2, hm]
          simp only [unmarkedCount, List.filter_cons, hx, decide_True, if_true,
            List.length_cons]
          push_cast
          ring
    · rw [if_neg hx] at hr
      cases hs : sweepLoop xs n with
      | error e => rw [hs] at hr; simp at hr
      | ok r =>
        obtain ⟨r1, r2⟩ := r
        rw [hs] at hr
        simp only [Except.ok.injEq, Prod.mk.injEq] at hr
        obtain ⟨e1, e2⟩ := ih _ _ _ hs
        refine ⟨?_, ?_⟩
        · rw [← hr.1, e1]; simp [List.filter_cons, hx]
        · rw [← hr.2, e2]
          simp [unmarkedCount, List.filter_cons, hx]

theorem sweepLoop_ok (h : List _Object) : ∀ (n : Int),
    n ≤ INT_MAX → INT_MIN ≤ n - (unmarkedCount h : Int) →
    ∃ r, sweepLoop h n = .ok r := by
  induction h with
  | nil => intro n _ _; exact ⟨_, rfl⟩
  | cons x xs ih =>
    intro n h1 h2
    unfold sweepLoop
    by_cases hx : x.marked = 0
    · rw [if_pos hx]
      have hu : (unmarkedCount (x :: xs) : Int) = (unmarkedCount xs : Int) + 1 := by
        simp [unmarkedCount, List.filter_cons, hx]
      rw [hu] at h2
      have hnn : (0 : Int) ≤ (unmarkedCount xs : Int) := Int.natCast_nonneg _
      rw [checkInt_of_range (by omega) (by omega)]
      simp only
      exact ih _ (by omega) (by omega)
    · rw [if_neg hx]
      have hu : (unmarkedCount (x :: xs) : Int) = (unmarkedCount xs : Int) := by
        simp [unmarkedCount, List.filter_cons, hx]
      rw [hu] at h2
      obtain ⟨r, hr⟩ := ih n h1 h2
      rw [hr]
      exact ⟨_, rfl⟩

/-- The steps of a run of `gc` that returns. -/
theorem gc_ok_inv {vm vm2 : VM} (hr : gc vm = .ok vm2) :
    ∃ h1, markAllLoop vm.stack (List.range vm.stackSize.toNat) vm.head = .ok h1
      ∧ vm2.head = (h1.filter (fun o => decide (o.marked ≠ 0))).map
          (fun o => { o with marked := 0 })
      ∧ vm2.numAllocatedObj = vm.numAllocatedObj - (unmarkedCount h1 : Int)
      ∧ vm2.maxGCCapacity = vm2.numAllocatedObj * 2
      ∧ vm2.stack = vm.stack ∧ vm2.stackSize = vm.stackSize
      ∧ (INT_MIN ≤ vm2.numAllocatedObj * 2 ∧ vm2.numAllocatedObj * 2 ≤ INT_MAX) := by
  unfold gc gcReport markAll sweep at hr
  cases hm : markAllLoop vm.stack (List.range vm.stackSize.toNat) vm.head with
  | error e => rw [hm] at hr; simp at hr
  | ok h1 =>
    rw [hm] at hr
    simp only at hr
    cases hs : sweepLoop h1 vm.numAllocatedObj with
    | error e => rw [hs] at hr; simp at hr
    | ok r =>
      obtain ⟨l, n⟩ := r
      rw [hs] at hr
      simp only at hr
      obtain ⟨e1, e2⟩ := sweepLoop_spec _ _ _ _ hs
      cases hc : checkInt (n * 2) with
      | error e => rw [hc] at hr; simp at hr
      | ok cap =>
        rw [hc] at hr
        simp only at hr
        cases hd : checkInt (vm.numAllocatedObj - n) with
        | error e => rw [hd] at hr; simp at hr
        | ok c =>
          rw [hd] at hr
          simp only [Except.ok.injEq] at hr
          obtain ⟨hrange, hcap⟩ := checkInt_eq_ok.mp hc
          refine ⟨h1, rfl, ?_, ?_, ?_, ?_, ?_, ?_⟩
          · rw [← hr]; exact e1
          · rw [← hr]; exact e2
          · rw [← hr]; exact hcap
          · rw [← hr]
          · rw [← hr]
          · rw [← hr]; exact hrange

/-- A run of `gc` returns when marking and sweeping do and the numbers fit. -/
theorem gc_ok_intro {vm : VM} {h1 : List _Object}
    (hm : markAllLoop vm.stack (List.range vm.stackSize.toNat) vm.head = .ok h1)
    (hn : vm.numAllocatedObj ≤ INT_MAX) (hu : (unmarkedCount h1 : Int) ≤ INT_MAX)
    (h0 : INT_MIN ≤ (vm.numAllocatedObj - (unmarkedCount h1 : Int)) * 2)
    (h2 : (vm.numAllocatedObj - (unmarkedCount h1 : Int)) * 2 ≤ INT_MAX) :
    gc vm = .ok { vm with
      head := (h1.filter (fun o => decide (o.marked ≠ 0))).map (fun o => { o with marked := 0 })
      numAllocatedObj := vm.numAllocatedObj - (unmarkedCount h1 : Int)
      maxGCCapacity := (vm.numAllocatedObj - (unmarkedCount h1 : Int)) * 2 } := by
  have hmin : INT_MIN = -2147483648 := rfl
  have hmax : INT_MAX = 2147483647 := rfl
  obtain ⟨r, hs⟩ := sweepLoop_ok h1 vm.numAllocatedObj hn (by omega)
  obtain ⟨l, n⟩ := r
  obtain ⟨e1, e2⟩ := sweepLoop_spec _ _ _ _ hs
  have hnn : (0 : Int) ≤ (unmarkedCount h1 : Int) := Int.natCast_nonneg _
  unfold gc gcReport markAll sweep
  rw [hm]
  simp only
  rw [hs]
  simp only
  rw [e2, checkInt_of_range h0 h2]
  simp only
  rw [checkInt_of_range (by omega) (by omega)]
  simp only [e1]

/-! ## What `gc` keeps -/

theorem mem_roots_iff (vm : VM) (a : Addr) :
    a ∈ (List.range vm.stackSize.toNat).map vm.stack ↔ IsRoot vm a := by
  unfold IsRoot
  simp only [List.mem_map, List.mem_range]
  constructor
  · rintro ⟨i, hi, rfl⟩
    exact ⟨i, Int.lt_toNat.mp hi, rfl⟩
  · rintro ⟨i, hi, rfl⟩
    exact ⟨i, Int.lt_toNat.mpr hi, rfl⟩

theorem not_markedAt_of_allUnmarked {h : List _Object} (hu : AllUnmarked h) (a : Addr) :
    ¬ MarkedAt h a := by
  rintro ⟨o, ho, hm⟩
  exact hm (hu o (lookup_some_mem ho).1)

/-- From a registry with all flags clear, marking then sweeping keeps exactly
the objects at the addresses written, as they were. -/
theorem sweep_markSet_of_allUnmarked {h : List _Object} (hu : AllUnmarked h) (w : List Addr) :
    ((markSet w h).filter (fun o => decide (o.marked ≠ 0))).map
        (fun o => { o with marked := 0 })
      = h.filter (fun o => decide (o.addr ∈ w)) := by
  induction h with
  | nil => simp [markSet]
  | cons x xs ih =>
    have hx : x.marked = 0 := hu x (List.mem_cons_self _ _)
    have ih2 := ih (fun o ho => hu o (List.mem_cons_of_mem _ ho))
    unfold markSet at ih2 ⊢
    rw [List.map_cons, List.filter_cons, List.filter_cons]
    by_cases hw : x.addr ∈ w
    · simp only [hw, if_true, decide_True, ne_eq, one_ne_zero, not_false_eq_true,
        List.map_cons]
      rw [ih2]
      congr 1
      cases x
      simp only at hx
      simp [hx]
    · simp only [hw, if_false, decide_False, hx, ne_eq, not_true_eq_false]
      exact ih2

theorem unmarkedCount_markSet_of_allUnmarked {h : List _Object} (hu : AllUnmarked h)
    (w : List Addr) :
    unmarkedCount (markSet w h) = (h.filter (fun o => decide (o.addr ∉ w))).length := by
  induction h with
  | nil => simp [markSet, unmarkedCount]
  | cons x xs ih =>
    have hx : x.marked = 0 := hu x (List.mem_cons_self _ _)
    have ih2 := ih (fun o ho => hu o (List.mem_cons_of_mem _ ho))
    unfold markSet unmarkedCount at ih2 ⊢
    rw [List.map_cons, List.filter_cons, List.filter_cons]
    by_cases hw : x.addr ∈ w
    · simp [hw, ih2]
    · simp [hw, hx, ih2]

theorem reachable_of_markPost {vm : VM} {w : List Addr} {h1 : List _Object}
    (p : MarkPost vm.head ((List.range vm.stackSize.toNat).map vm.stack) w h1)
    {a : Addr} (ha : a ∈ w) : Reachable vm a := by
  obtain ⟨r, hr, hp⟩ := p.reach a ha
  exact ⟨r, (mem_roots_iff vm r).mp hr, hp⟩

theorem mem_writes_of_reachable {vm : VM} {w : List Addr} {h1 : List _Object}
    (hu : AllUnmarked vm.head)
    (p : MarkPost vm.head ((List.range vm.stackSize.toNat).map vm.stack) w h1)
    {a : Addr} (ha : Reachable vm a) : a ∈ w ∧ a ∈ addrs vm.head := by
  have key : ∀ c, MarkedAt h1 c → c ∈ w ∧ c ∈ addrs vm.head := by
    intro c hc
    rw [p.heap, markedAt_markSet] at hc
    rcases hc.2 with hc2 | hc2
    · exact ⟨hc2, hc.1⟩
    · exact absurd hc2 (not_markedAt_of_allUnmarked hu c)
  obtain ⟨r, hr, hp⟩ := ha
  induction hp with
  | refl => exact key r (p.root r ((mem_roots_iff vm r).mpr hr))
  | tail _ hl ih => exact key _ (p.closure _ ih.1 _ hl)

/-- The registry after `gc`, from a state with all flags clear: the objects
at the reachable addresses, unchanged and in the same order. -/
theorem gc_spec {vm vm2 : VM} (hu : AllUnmarked vm.head) (hr : gc vm = .ok vm2) :
    ∃ w : List Addr,
      (∀ a, a ∈ w ↔ Reachable vm a) ∧ (∀ a ∈ w, a ∈ addrs vm.head)
      ∧ vm2.head = vm.head.filter (fun o => decide (o.addr ∈ w))
      ∧ vm2.numAllocatedObj = vm.numAllocatedObj
          - ((vm.head.filter (fun o => decide (o.addr ∉ w))).length : Int) := by
  obtain ⟨h1, hm, e1, e2, -, -, -, -⟩ := gc_ok_inv hr
  have p := markAllLoop_post _ _ _ _ hm
  refine ⟨markAllWrites vm.stack (List.range vm.stackSize.toNat) vm.head, ?_, ?_, ?_, ?_⟩
  · intro a
    exact ⟨fun ha => reachable_of_markPost p ha, fun ha => (mem_writes_of_reachable hu p ha).1⟩
  · intro a ha
    exact (mem_writes_of_reachable hu p (reachable_of_markPost p ha)).2
  · rw [e1, p.heap, sweep_markSet_of_allUnmarked hu]
  · rw [e2, p.heap, unmarkedCount_markSet_of_allUnmarked hu]

theorem unmarkedCount_le_length (h : List _Object) : unmarkedCount h ≤ h.length :=
  List.length_filter_le _ h

/-- A ready state: `gc` returns. -/
theorem gc_returns {vm : VM} (hw : GcReady vm) : ∃ vm2, gc vm = .ok vm2 := by
  obtain ⟨⟨hroots, hlinks⟩, hsize, hcons, hlen⟩ := hw
  have hloop : ∃ h1, markAllLoop vm.stack (List.range vm.stackSize.toNat) vm.head = .ok h1 := by
    apply markAllLoop_ok_of_closed _ _ _ (linksValid_of_closed hlinks)
    intro i hi
    have hi2 : (i : Int) < vm.stackSize := Int.lt_toNat.mp (List.mem_range.mp hi)
    exact ⟨lt_of_lt_of_le hi2 hsize, hroots _ ⟨i, hi2, rfl⟩⟩
  obtain ⟨h1, hm⟩ := hloop
  have p := markAllLoop_post _ _ _ _ hm
  have hle : unmarkedCount h1 ≤ vm.head.length := by
    have := unmarkedCount_le_length h1
    rw [p.heap, length_markSet] at this
    rw [p.heap]
    exact this
  have hnn : (0 : Int) ≤ (unmarkedCount h1 : Int) := Int.natCast_nonneg _
  have hmin : INT_MIN = -2147483648 := rfl
  unfold Consistent at hcons
  exact ⟨_, gc_ok_intro hm (by omega) (by omega) (by omega) (by omega)⟩

/-! ## Checking the vocabulary on explicit states -/

theorem closed_of_roots {vm : VM}
    (hr : ∀ a ∈ (List.range vm.stackSize.toNat).map vm.stack, a ∈ addrs vm.head)
    (hl : LinksClosed vm.head) : Closed vm :=
  ⟨fun a ha => hr a ((mem_roots_iff vm a).mpr ha), hl⟩

theorem not_reachable_of_empty_stack {vm : VM} (hs : vm.stackSize ≤ 0) (a : Addr) :
    ¬ Reachable vm a := by
  rintro ⟨r, ⟨i, hi, -⟩, -⟩
  have : (0 : Int) ≤ (i : Int) := Int.natCast_nonneg i
  omega

theorem cycleVM_allUnmarked : AllUnmarked cycleVM.head := by
  unfold AllUnmarked; decide

theorem cycleVM_closed : Closed cycleVM :=
  closed_of_roots (by decide) (by unfold LinksClosed; decide)

theorem cycleVM_ready : GcReady cycleVM :=
  ⟨cycleVM_closed, by decide, by unfold Consistent; decide, by decide⟩

/-! ## C1, C2 -/

/-- C1 (reachability soundness of `gc`): take a state whose registry objects
are all unmarked and whose roots and pair links point into the registry.
Whenever `gc` returns, every address reached from an occupied root slot by
following pair links zero or more times is still the address of an object of
the registry; and `gc` does return when the stack fits its array and the
counter is the number of objects and can be doubled. -/
theorem gc_reachable_survives (vm : VM) (hu : AllUnmarked vm.head) (hc : Closed vm) :
    (∀ vm2, gc vm = .ok vm2 → ∀ a, Reachable vm a → a ∈ addrs vm2.head)
    ∧ (vm.stackSize ≤ STACK_MAX → Consistent vm → (vm.head.length : Int) * 2 ≤ INT_MAX →
        ∃ vm2, gc vm = .ok vm2) := by
  refine ⟨?_, fun h1 h2 h3 => gc_returns ⟨hc, h1, h2, h3⟩⟩
  intro vm2 hr a ha
  obtain ⟨w, hw, hwa, hhead, -⟩ := gc_spec hu hr
  have haw : a ∈ w := (hw a).mpr ha
  obtain ⟨o, ho, hoa⟩ := mem_addrs_iff.mp (hwa a haw)
  rw [hhead]
  refine mem_addrs_iff.mpr ⟨o, List.mem_filter.mpr ⟨ho, ?_⟩, hoa⟩
  rw [hoa]
  exact decide_eq_true haw

/-- Witness of C1: the cyclic state of `test4`. -/
theorem gc_reachable_survives_witness :
    AllUnmarked cycleVM.head ∧ Closed cycleVM
    ∧ ((∀ vm2, gc cycleVM = .ok vm2 → ∀ a, Reachable cycleVM a → a ∈ addrs vm2.head)
      ∧ (cycleVM.stackSize ≤ STACK_MAX → Consistent cycleVM →
          (cycleVM.head.length : Int) * 2 ≤ INT_MAX → ∃ vm2, gc cycleVM = .ok vm2)) :=
  ⟨cycleVM_allUnmarked, cycleVM_closed,
    gc_reachable_survives cycleVM cycleVM_allUnmarked cycleVM_closed⟩

/-- C2 (reachability completeness of `gc`): from a state whose registry
objects are all unmarked, whenever `gc` returns, no object of the registry
that is not reachable from an occupied root slot through pair links has its
address in the registry afterwards, and `gc` returns in every ready state.
The scenario of `test2` ends with an empty registry; from the cyclic state of
`test4` exactly the four objects at 6, 4, 3 and 1 of the six remain. -/
theorem gc_unreachable_removed (vm : VM) (hu : AllUnmarked vm.head) :
    (∀ vm2, gc vm = .ok vm2 →
        ∀ o ∈ vm.head, ¬ Reachable vm o.addr → o.addr ∉ addrs vm2.head)
    ∧ (GcReady vm → ∃ vm2, gc vm = .ok vm2)
    ∧ (∃ vm2, run newVM test2Ops = .ok vm2 ∧ vm2.head = [] ∧ vm2.numAllocatedObj = 0)
    ∧ (∃ vm1 vm2, run newVM test4Ops = .ok vm1 ∧ vm1.head = cycleVM.head
        ∧ vm1.stackSize = 2 ∧ vm1.stack 0 = 3 ∧ vm1.stack 1 = 6
        ∧ gc vm1 = .ok vm2 ∧ addrs vm2.head = [6, 4, 3, 1] ∧ vm2.numAllocatedObj = 4) := by
  refine ⟨?_, gc_returns, ⟨_, rfl, rfl, rfl⟩, ⟨_, _, rfl, rfl, rfl, rfl, rfl, rfl, rfl, rfl⟩⟩
  intro vm2 hr o _ hno hmem
  obtain ⟨w, hw, -, hhead, -⟩ := gc_spec hu hr
  rw [hhead] at hmem
  obtain ⟨o2, ho2, hoa⟩ := mem_addrs_iff.mp hmem
  have := (List.mem_filter.mp ho2).2
  rw [hoa] at this
  exact hno ((hw _).mp (of_decide_eq_true this))

/-- Witness of C2: nothing is reachable in the idle state, so the object at
address 1 is gone after `gc`. -/
theorem gc_unreachable_removed_witness :
    AllUnmarked idleVM.head
    ∧ ∀ vm2, gc idleVM = .ok vm2 → (1 : Addr) ∉ addrs vm2.head :=
  ⟨by unfold AllUnmarked; decide, fun vm2 hr =>
    (gc_unreachable_removed idleVM (by unfold AllUnmarked; decide)).1 vm2 hr
      { addr := 1, type := .OBJ_INT, marked := 0, value := 1, head := NULL, tail := NULL }
      (by decide) (not_reachable_of_empty_stack (by decide) _)⟩

/-! ## The stack operations and the allocation, unfolded -/

theorem push_ok_inv {vm vm2 : VM} {x : Addr} (hr : push vm x = .ok vm2) :
    (0 ≤ vm.stackSize ∧ vm.stackSize < STACK_MAX)
      ∧ vm2 = { vm with
          stack := Function.update vm.stack vm.stackSize.toNat x
          stackSize := vm.stackSize + 1 } := by
  unfold push at hr
  by_cases h1 : vm.stackSize < STACK_MAX
  · rw [if_neg (not_not.mpr h1)] at hr
    by_cases h2 : vm.stackSize < 0
    · rw [if_pos h2] at hr; simp at hr
    · rw [if_neg h2] at hr
      simp only [Except.ok.injEq] at hr
      exact ⟨⟨not_lt.mp h2, h1⟩, hr.symm⟩
  · rw [if_pos h1] at hr; simp at hr

theorem push_ok_intro {vm : VM} (x : Addr) (h0 : 0 ≤ vm.stackSize)
    (h1 : vm.stackSize < STACK_MAX) :
    push vm x = .ok { vm with
      stack := Function.update vm.stack vm.stackSize.toNat x
      stackSize := vm.stackSize + 1 } := by
  unfold push
  rw [if_neg (not_not.mpr h1), if_neg (not_lt.mpr h0)]

theorem pop_ok_inv {vm vm2 : VM} {x : Addr} (hr : pop vm = .ok (vm2, x)) :
    (0 < vm.stackSize ∧ vm.stackSize ≤ STACK_MAX)
      ∧ vm2 = { vm with stackSize := vm.stackSize - 1 }
      ∧ x = vm.stack (vm.stackSize - 1).toNat := by
  unfold pop at hr
  by_cases h1 : vm.stackSize > 0
  · rw [if_neg (not_not.mpr h1)] at hr
    by_cases h2 : STACK_MAX ≤ vm.stackSize - 1
    · rw [if_pos h2] at hr; simp at hr
    · rw [if_neg h2] at hr
      simp only [Except.ok.injEq, Prod.mk.injEq] at hr
      exact ⟨⟨h1, by omega⟩, hr.1.symm, hr.2.symm⟩
  · rw [if_pos h1] at hr; simp at hr

theorem pop_ok_intro {vm : VM} (h0 : 0 < vm.stackSize) (h1 : vm.stackSize ≤ STACK_MAX) :
    pop vm = .ok ({ vm with stackSize := vm.stackSize - 1 },
      vm.stack (vm.stackSize - 1).toNat) := by
  unfold pop
  rw [if_neg (not_not.mpr h0), if_neg (by omega)]

/-- The steps of a run of `newObject` that returns: `vm1` is the state in
which the object is constructed. -/
theorem newObject_ok_inv {vm vm2 : VM} {ty : ObjectType} {a : Addr}
    (hr : newObject vm ty a = .ok vm2) :
    ∃ vm1, ((vm.numAllocatedObj = vm.maxGCCapacity ∧ gc vm = .ok vm1)
        ∨ (vm.numAllocatedObj ≠ vm.maxGCCapacity ∧ vm1 = vm))
      ∧ (a ≠ NULL ∧ a ∉ addrs vm1.head)
      ∧ vm1.numAllocatedObj + 1 ≤ INT_MAX
      ∧ vm2 = { vm1 with
          head := { addr := a, type := ty, marked := 0, value := 0,
                    head := NULL, tail := NULL } :: vm1.head
          numAllocatedObj := vm1.numAllocatedObj + 1 } := by
  unfold newObject at hr
  cases hg : (if vm.numAllocatedObj = vm.maxGCCapacity then gc vm else .ok vm) with
  | error e => rw [hg] at hr; simp at hr
  | ok vm1 =>
    rw [hg] at hr
    simp only at hr
    by_cases ha : a = NULL ∨ a ∈ addrs vm1.head
    · rw [if_pos ha] at hr; simp at hr
    · rw [if_neg ha] at hr
      cases hc : checkInt (vm1.numAllocatedObj + 1) with
      | error e => rw [hc] at hr; simp at hr
      | ok n =>
        rw [hc] at hr
        simp only [Except.ok.injEq] at hr
        obtain ⟨hrange, hn⟩ := checkInt_eq_ok.mp hc
        refine ⟨vm1, ?_, not_or.mp ha, hrange.2, ?_⟩
        · by_cases hn : vm.numAllocatedObj = vm.maxGCCapacity
          · rw [if_pos hn] at hg; exact Or.inl ⟨hn, hg⟩
          · rw [if_neg hn] at hg
            simp only [Except.ok.injEq] at hg
            exact Or.inr ⟨hn, hg.symm⟩
        · rw [← hr, hn]

theorem newObject_ok_intro {vm vm1 : VM} (ty : ObjectType) {a : Addr}
    (hg : (if vm.numAllocatedObj = vm.maxGCCapacity then gc vm else .ok vm) = .ok vm1)
    (h0 : a ≠ NULL) (hf : a ∉ addrs vm1.head)
    (h1 : INT_MIN ≤ vm1.numAllocatedObj + 1) (h2 : vm1.numAllocatedObj + 1 ≤ INT_MAX) :
    newObject vm ty a = .ok { vm1 with
      head := { addr := a, type := ty, marked := 0, value := 0,
                head := NULL, tail := NULL } :: vm1.head
      numAllocatedObj := vm1.numAllocatedObj + 1 } := by
  unfold newObject
  rw [hg]
  simp only
  rw [if_neg (not_or.mpr ⟨h0, hf⟩), checkInt_of_range h1 h2]

/-! ## The counter and the length of the registry -/

theorem length_marked_add_unmarked (h : List _Object) :
    ((h.filter (fun o => decide (o.marked ≠ 0))).length : Int) + (unmarkedCount h : Int)
      = (h.length : Int) := by
  induction h with
  | nil => simp [unmarkedCount]
  | cons x xs ih =>
    unfold unmarkedCount at ih ⊢
    by_cases hx : x.marked = 0
    · simp [List.filter_cons, hx] at ih ⊢
      omega
    · simp [List.filter_cons, hx] at ih ⊢
      omega

theorem sweep_ok_inv {vm vm2 : VM} (hr : sweep vm = .ok vm2) :
    vm2 = { vm with
      head := (vm.head.filter (fun o => decide (o.marked ≠ 0))).map
        (fun o => { o with marked := 0 })
      numAllocatedObj := vm.numAllocatedObj - (unmarkedCount vm.head : Int) } := by
  unfold sweep at hr
  cases hs : sweepLoop vm.head vm.numAllocatedObj with
  | error e => rw [hs] at hr; simp at hr
  | ok r =>
    obtain ⟨l, n⟩ := r
    rw [hs] at hr
    simp only [Except.ok.injEq] at hr
    obtain ⟨e1, e2⟩ := sweepLoop_spec _ _ _ _ hs
    rw [← hr, e1, e2]

theorem sweep_consistent {vm vm2 : VM} (hc : Consistent vm) (hr : sweep vm = .ok vm2) :
    Consistent vm2 := by
  rw [sweep_ok_inv hr]
  unfold Consistent at hc ⊢
  have := length_marked_add_unmarked vm.head
  simp only [List.length_map]
  omega

theorem gc_consistent {vm vm2 : VM} (hc : Consistent vm) (hr : gc vm = .ok vm2) :
    Consistent vm2 := by
  obtain ⟨h1, hm, e1, e2, -⟩ := gc_ok_inv hr
  have p := markAllLoop_post _ _ _ _ hm
  have hlen : h1.length = vm.head.length := by rw [p.heap, length_markSet]
  have := length_marked_add_unmarked h1
  unfold Consistent at hc ⊢
  rw [e1, e2, List.length_map]
  omega

theorem newObject_consistent {vm vm2 : VM} {ty : ObjectType} {a : Addr}
    (hc : Consistent vm) (hr : newObject vm ty a = .ok vm2) : Consistent vm2 := by
  obtain ⟨vm1, hg, -, -, rfl⟩ := newObject_ok_inv hr
  have h1 : Consistent vm1 := by
    rcases hg with ⟨-, hg⟩ | ⟨-, rfl⟩
    · exact gc_consistent hc hg
    · exact hc
  unfold Consistent at h1 ⊢
  simp only [List.length_cons]
  push_cast
  omega

theorem push_consistent {vm vm2 : VM} {x : Addr}
    (hc : Consistent vm) (hr : push vm x = .ok vm2) : Consistent vm2 := by
  rw [(push_ok_inv hr).2]
  exact hc

theorem pop_consistent {vm vm2 : VM} {x : Addr}
    (hc : Consistent vm) (hr : pop vm = .ok (vm2, x)) : Consistent vm2 := by
  rw [(pop_ok_inv hr).2.1]
  exact hc

/-! ## `pushInt` and `pushPair` unfolded -/

theorem pushInt_ok_inv {vm vm2 : VM} {a : Addr} {v : Int} (hr : pushInt vm a v = .ok vm2) :
    ∃ vm1, newObject vm ObjectType.OBJ_INT a = .ok vm1
      ∧ (0 ≤ vm1.stackSize ∧ vm1.stackSize < STACK_MAX)
      ∧ vm2 = { vm1 with
          head := setValue vm1.head a v
          stack := Function.update vm1.stack vm1.stackSize.toNat a
          stackSize := vm1.stackSize + 1 } := by
  unfold pushInt at hr
  cases hn : newObject vm ObjectType.OBJ_INT a with
  | error e => rw [hn] at hr; simp at hr
  | ok vm1 =>
    rw [hn] at hr
    simp only at hr
    obtain ⟨hs, e⟩ := push_ok_inv hr
    exact ⟨vm1, rfl, hs, e⟩

/-- The steps of a run of `pushPair` that returns: `vm1` is the state after
the allocation, the new pair gets the two topmost roots of `vm1`. -/
theorem pushPair_ok_inv {vm vm2 : VM} {a p : Addr} (hr : pushPair vm a = .ok (vm2, p)) :
    ∃ vm1, newObject vm ObjectType.OBJ_PAIR a = .ok vm1
      ∧ p = a
      ∧ (2 ≤ vm1.stackSize ∧ vm1.stackSize ≤ STACK_MAX)
      ∧ vm2 = { vm1 with
          head := setHead (setTail vm1.head a (vm1.stack (vm1.stackSize - 1).toNat)) a
            (vm1.stack (vm1.stackSize - 1 - 1).toNat)
          stack := Function.update vm1.stack (vm1.stackSize - 1 - 1).toNat a
          stackSize := vm1.stackSize - 1 - 1 + 1 } := by
  unfold pushPair at hr
  cases hn : newObject vm ObjectType.OBJ_PAIR a with
  | error e => rw [hn] at hr; simp at hr
  | ok vm1 =>
    rw [hn] at hr
    simp only at hr
    cases hp1 : pop vm1 with
    | error e => rw [hp1] at hr; simp at hr
    | ok r1 =>
      obtain ⟨vm2a, t⟩ := r1
      rw [hp1] at hr
      simp only at hr
      obtain ⟨hs1, e1, et⟩ := pop_ok_inv hp1
      cases hp2 : pop { vm2a with head := setTail vm2a.head a t } with
      | error e => rw [hp2] at hr; simp at hr
      | ok r2 =>
        obtain ⟨vm3, hd⟩ := r2
        rw [hp2] at hr
        simp only at hr
        obtain ⟨hs2, e2, ehd⟩ := pop_ok_inv hp2
        cases hp3 : push { vm3 with head := setHead vm3.head a hd } a with
        | error e => rw [hp3] at hr; simp at hr
        | ok vm4 =>
          rw [hp3] at hr
          simp only [Except.ok.injEq, Prod.mk.injEq] at hr
          obtain ⟨hs3, e3⟩ := push_ok_inv hp3
          subst e1
          subst e2
          simp only at hs2 hs3 e3 ehd et
          refine ⟨vm1, rfl, hr.2.symm, ⟨by omega, hs1.2⟩, ?_⟩
          rw [← hr.1, e3, ehd, et]

theorem pushPair_ok_intro {vm vm1 : VM} {a : Addr}
    (hn : newObject vm ObjectType.OBJ_PAIR a = .ok vm1)
    (h2 : 2 ≤ vm1.stackSize) (hmax : vm1.stackSize ≤ STACK_MAX) :
    ∃ vm2, pushPair vm a = .ok (vm2, a) := by
  have hS : STACK_MAX = 256 := rfl
  unfold pushPair
  rw [hn]
  simp only
  rw [pop_ok_intro (by omega) hmax]
  simp only
  rw [pop_ok_intro (by simp only; omega) (by simp only; omega)]
  simp only
  rw [push_ok_intro a (by simp only; omega) (by simp only; omega)]
  exact ⟨_, rfl⟩

theorem pushInt_ok_intro {vm vm1 : VM} {a : Addr} (v : Int)
    (hn : newObject vm ObjectType.OBJ_INT a = .ok vm1)
    (h0 : 0 ≤ vm1.stackSize) (hmax : vm1.stackSize < STACK_MAX) :
    ∃ vm2, pushInt vm a v = .ok vm2 := by
  unfold pushInt
  rw [hn]
  simp only
  rw [push_ok_intro a (by simpa using h0) (by simpa using hmax)]
  exact ⟨_, rfl⟩

theorem length_setValue (h : List _Object) (a : Addr) (v : Int) :
    (setValue h a v).length = h.length := by
  simp [setValue]

theorem length_setHead (h : List _Object) (a p : Addr) :
    (setHead h a p).length = h.length := by
  simp [setHead]

theorem length_setTail (h : List _Object) (a p : Addr) :
    (setTail h a p).length = h.length := by
  simp [setTail]

theorem pushInt_consistent {vm vm2 : VM} {a : Addr} {v : Int}
    (hc : Consistent vm) (hr : pushInt vm a v = .ok vm2) : Consistent vm2 := by
  obtain ⟨vm1, hn, -, rfl⟩ := pushInt_ok_inv hr
  have := newObject_consistent hc hn
  unfold Consistent at this ⊢
  simp only [length_setValue]
  exact this

theorem pushPair_consistent {vm vm2 : VM} {a p : Addr}
    (hc : Consistent vm) (hr : pushPair vm a = .ok (vm2, p)) : Consistent vm2 := by
  obtain ⟨vm1, hn, -, -, rfl⟩ := pushPair_ok_inv hr
  have := newObject_consistent hc hn
  unfold Consistent at this ⊢
  simp only [length_setHead, length_setTail]
  exact this

/-! ## Invariants of operation sequences -/

/-- A property that every operation preserves holds along a sequence. -/
theorem run_invariant (I : VM → Prop)
    (hstep : ∀ vm op vm2, I vm → step vm op = .ok vm2 → I vm2) (ops : List Op) :
    ∀ vm vm2, I vm → run vm ops = .ok vm2 → I vm2 := by
  induction ops with
  | nil =>
    intro vm vm2 hI hr
    simp only [run, Except.ok.injEq] at hr
    rw [← hr]; exact hI
  | cons op ops ih =>
    intro vm vm2 hI hr
    unfold run at hr
    cases hs : step vm op with
    | error e => rw [hs] at hr; simp at hr
    | ok vm1 =>
      rw [hs] at hr
      exact ih vm1 vm2 (hstep vm op vm1 hI hs) hr

theorem step_consistent {vm vm2 : VM} {op : Op} (hc : Consistent vm)
    (hr : step vm op = .ok vm2) : Consistent vm2 := by
  cases op with
  | pushInt a v => exact pushInt_consistent hc hr
  | pushPair a =>
    simp only [step] at hr
    cases hp : pushPair vm a with
    | error e => rw [hp] at hr; simp at hr
    | ok r =>
      obtain ⟨vm3, p⟩ := r
      rw [hp] at hr
      simp only [Except.ok.injEq] at hr
      rw [← hr]
      exact pushPair_consistent hc hp
  | pop =>
    simp only [step] at hr
    cases hp : pop vm with
    | error e => rw [hp] at hr; simp at hr
    | ok r =>
      obtain ⟨vm3, p⟩ := r
      rw [hp] at hr
      simp only [Except.ok.injEq] at hr
      rw [← hr]
      exact pop_consistent hc hp
  | gc => exact gc_consistent hc hr
  | assignHead p q =>
    simp only [step] at hr
    cases hl : lookup vm.head p with
    | none => rw [hl] at hr; simp at hr
    | some o =>
      rw [hl] at hr
      simp only at hr
      split at hr
      · simp only [Except.ok.injEq] at hr
        rw [← hr]
        unfold Consistent at hc ⊢
        simp only [length_setHead]
        exact hc
      · simp at hr
  | assignTail p q =>
    simp only [step] at hr
    cases hl : lookup vm.head p with
    | none => rw [hl] at hr; simp at hr
    | some o =>
      rw [hl] at hr
      simp only at hr
      split at hr
      · simp only [Except.ok.injEq] at hr
        rw [← hr]
        unfold Consistent at hc ⊢
        simp only [length_setTail]
        exact hc
      · simp at hr

theorem reachableState_consistent {vm : VM} (hr : ReachableState vm) : Consistent vm := by
  obtain ⟨ops, ho⟩ := hr
  exact run_invariant Consistent (fun _ _ _ hI hs => step_consistent hI hs) ops newVM vm
    (by unfold Consistent; rfl) ho

/-! ## What `gc` cannot add -/

theorem gc_addrs_subset {vm vm2 : VM} (hr : gc vm = .ok vm2) :
    ∀ a ∈ addrs vm2.head, a ∈ addrs vm.head := by
  obtain ⟨h1, hm, e1, -⟩ := gc_ok_inv hr
  have p := markAllLoop_post _ _ _ _ hm
  intro a ha
  rw [e1] at ha
  obtain ⟨o, ho, hoa⟩ := mem_addrs_iff.mp ha
  obtain ⟨o1, ho1, rfl⟩ := List.mem_map.mp ho
  have hmem := (List.mem_filter.mp ho1).1
  rw [← addrs_markSet _ vm.head, ← p.heap]
  exact mem_addrs_iff.mpr ⟨o1, hmem, hoa⟩

theorem gc_frame {vm vm2 : VM} (hr : gc vm = .ok vm2) :
    vm2.stack = vm.stack ∧ vm2.stackSize = vm.stackSize
      ∧ vm2.maxGCCapacity = vm2.numAllocatedObj * 2 := by
  obtain ⟨h1, -, -, -, hcap, hst, hsz, -⟩ := gc_ok_inv hr
  exact ⟨hst, hsz, hcap⟩

theorem gc_counter_le {vm vm2 : VM} (hr : gc vm = .ok vm2) :
    vm2.numAllocatedObj ≤ vm.numAllocatedObj
      ∧ vm.numAllocatedObj - (vm.head.length : Int) ≤ vm2.numAllocatedObj := by
  obtain ⟨h1, hm, -, e2, -⟩ := gc_ok_inv hr
  have p := markAllLoop_post _ _ _ _ hm
  have hle := unmarkedCount_le_length h1
  rw [p.heap, length_markSet, ← p.heap] at hle
  omega

theorem gc_flags_clear {vm vm2 : VM} (hr : gc vm = .ok vm2) : AllUnmarked vm2.head := by
  obtain ⟨h1, -, e1, -⟩ := gc_ok_inv hr
  intro o ho
  rw [e1] at ho
  obtain ⟨o1, -, rfl⟩ := List.mem_map.mp ho
  rfl

theorem newObject_returns {vm : VM} (ty : ObjectType) {a : Addr} (hw : GcReady vm)
    (h0 : a ≠ NULL) (hf : a ∉ addrs vm.head) (hn : vm.numAllocatedObj + 1 ≤ INT_MAX) :
    ∃ vm2, newObject vm ty a = .ok vm2 := by
  have hmin : INT_MIN = -2147483648 := rfl
  have hcons : vm.numAllocatedObj = (vm.head.length : Int) := hw.2.2.1
  by_cases he : vm.numAllocatedObj = vm.maxGCCapacity
  · obtain ⟨vm1, hg⟩ := gc_returns hw
    have hle := gc_counter_le hg
    refine ⟨_, newObject_ok_intro ty (by rw [if_pos he]; exact hg) h0
      (fun h => hf (gc_addrs_subset hg a h)) (by omega) (by omega)⟩
  · exact ⟨_, newObject_ok_intro ty (by rw [if_neg he]) h0 hf (by omega) hn⟩

/-! ## C3, C4, C7, C8 -/

/-- C3 (count consistency): `numAllocatedObj` is the number of objects of the
registry in `newVM()`, where both are zero, and each of `newObject`,
`pushInt`, `pushPair`, `push`, `pop`, `sweep` and `gc` that runs from a state
in which the two agree returns a state in which they agree; so they agree in
every state a sequence of operations reaches from `newVM()`, such as the one
`test3` reaches, with seven objects. -/
theorem count_consistency :
    (newVM.numAllocatedObj = 0 ∧ newVM.head = [] ∧ Consistent newVM)
    ∧ (∀ vm ty a vm2, Consistent vm → newObject vm ty a = .ok vm2 → Consistent vm2)
    ∧ (∀ vm a v vm2, Consistent vm → pushInt vm a v = .ok vm2 → Consistent vm2)
    ∧ (∀ vm a vm2 p, Consistent vm → pushPair vm a = .ok (vm2, p) → Consistent vm2)
    ∧ (∀ vm x vm2, Consistent vm → push vm x = .ok vm2 → Consistent vm2)
    ∧ (∀ vm vm2 x, Consistent vm → pop vm = .ok (vm2, x) → Consistent vm2)
    ∧ (∀ vm vm2, Consistent vm → sweep vm = .ok vm2 → Consistent vm2)
    ∧ (∀ vm vm2, Consistent vm → gc vm = .ok vm2 → Consistent vm2)
    ∧ (∀ vm, ReachableState vm → Consistent vm)
    ∧ (∃ vm, run newVM test3Ops = .ok vm ∧ vm.numAllocatedObj = 7 ∧ vm.head.length = 7) :=
  ⟨⟨rfl, rfl, rfl⟩,
    fun _ _ _ _ hc hr => newObject_consistent hc hr,
    fun _ _ _ _ hc hr => pushInt_consistent hc hr,
    fun _ _ _ _ hc hr => pushPair_consistent hc hr,
    fun _ _ _ hc hr => push_consistent hc hr,
    fun _ _ _ hc hr => pop_consistent hc hr,
    fun _ _ hc hr => sweep_consistent hc hr,
    fun _ _ hc hr => gc_consistent hc hr,
    fun _ hr => reachableState_consistent hr,
    ⟨_, rfl, rfl, rfl⟩⟩

/-- C4 (flag hygiene): whatever the flags are beforehand, every object of
the registry that a returning `gc` leaves has `marked == 0`; `gc` returns in
every ready state, and readiness says nothing about the flags. -/
theorem gc_flag_hygiene (vm : VM) :
    (GcReady vm → ∃ vm2, gc vm = .ok vm2)
    ∧ (∀ vm2, gc vm = .ok vm2 → ∀ o ∈ vm2.head, o.marked = 0) :=
  ⟨gc_returns, fun _ hr => gc_flags_clear hr⟩

/-- Witness of C4: a state with flags set beforehand; the object at 1 is
kept, and all three flags are clear afterwards. -/
theorem gc_flag_hygiene_witness :
    ∃ vm2, gc dirtyVM = .ok vm2 ∧ addrs vm2.head = [3, 2, 1]
      ∧ ∀ o ∈ vm2.head, o.marked = 0 :=
  ⟨_, rfl, rfl, (gc_flag_hygiene dirtyVM).2 _ rfl⟩

/-- C7 (contract of `newObject`): a call that returns has run `gc` first
exactly when `numAllocatedObj == maxGCCapacity` on entry (the state `vm1` in
which the object is constructed is the result of `gc` then, and the entry
state otherwise); the object at the returned address has the requested type
and `marked == 0` and is the first of the registry, in front of the registry
of `vm1`; `numAllocatedObj` is one more than in `vm1`; the root stack is that
of the entry state.  The call returns in every ready state when `new` gives a
non-null address of no existing object and the counter can be incremented. -/
theorem newObject_contract (vm : VM) (ty : ObjectType) (a : Addr) :
    (GcReady vm → a ≠ NULL → a ∉ addrs vm.head → vm.numAllocatedObj + 1 ≤ INT_MAX →
      ∃ vm2, newObject vm ty a = .ok vm2)
    ∧ (∀ vm2, newObject vm ty a = .ok vm2 →
      ∃ vm1 o, ((vm.numAllocatedObj = vm.maxGCCapacity ∧ gc vm = .ok vm1)
          ∨ (vm.numAllocatedObj ≠ vm.maxGCCapacity ∧ vm1 = vm))
        ∧ vm2.head = o :: vm1.head
        ∧ lookup vm2.head a = some o
        ∧ o.addr = a ∧ o.type = ty ∧ o.marked = 0
        ∧ vm2.numAllocatedObj = vm1.numAllocatedObj + 1
        ∧ vm2.maxGCCapacity = vm1.maxGCCapacity
        ∧ vm2.stack = vm.stack ∧ vm2.stackSize = vm.stackSize) := by
  refine ⟨fun hw h0 hf hn => newObject_returns ty hw h0 hf hn, ?_⟩
  intro vm2 hr
  obtain ⟨vm1, hg, -, -, rfl⟩ := newObject_ok_inv hr
  refine ⟨vm1, _, hg, rfl, ?_, rfl, rfl, rfl, rfl, rfl, ?_, ?_⟩
  · simp [lookup, List.find?_cons]
  · rcases hg with ⟨-, hg⟩ | ⟨-, rfl⟩
    · exact (gc_frame hg).1
    · rfl
  · rcases hg with ⟨-, hg⟩ | ⟨-, rfl⟩
    · exact (gc_frame hg).2.1
    · rfl

/-- Witness of C7: an allocation in the cyclic state of `test4`, without a
collection as 6 is not 8. -/
theorem newObject_contract_witness :
    ∃ vm2, newObject cycleVM ObjectType.OBJ_INT 7 = .ok vm2
      ∧ addrs vm2.head = [7, 6, 5, 4, 3, 2, 1] ∧ vm2.numAllocatedObj = 7 :=
  let ⟨vm2, h⟩ := (newObject_contract cycleVM ObjectType.OBJ_INT 7).1 cycleVM_ready
    (by decide) (by decide) (by decide)
  ⟨vm2, h, by cases (Except.ok.inj (h.symm.trans (rfl :
      newObject cycleVM ObjectType.OBJ_INT 7 = .ok _))); exact ⟨rfl, rfl⟩⟩

/-- C8 (threshold update): `gc` returns in every ready state, and when it
returns `maxGCCapacity == 2 * numAllocatedObj` for the counter it leaves,
which is the number of survivors when the counter was right on entry; the
same holds for the collection inside `newObject`, measured before the new
object is counted. -/
theorem gc_threshold (vm : VM) :
    (GcReady vm → ∃ vm2, gc vm = .ok vm2)
    ∧ (∀ vm2, gc vm = .ok vm2 →
        vm2.maxGCCapacity = 2 * vm2.numAllocatedObj
        ∧ (Consistent vm → vm2.maxGCCapacity = 2 * (vm2.head.length : Int)))
    ∧ (∀ ty a vm2, vm.numAllocatedObj = vm.maxGCCapacity → newObject vm ty a = .ok vm2 →
        vm2.maxGCCapacity = 2 * (vm2.numAllocatedObj - 1)
        ∧ (Consistent vm → vm2.maxGCCapacity = 2 * ((vm2.head.length : Int) - 1))) := by
  refine ⟨gc_returns, ?_, ?_⟩
  · intro vm2 hr
    have hcap := (gc_frame hr).2.2
    refine ⟨by rw [hcap]; ring, fun hc => ?_⟩
    have := gc_consistent hc hr
    unfold Consistent at this
    rw [hcap, this]; ring
  · intro ty a vm2 he hr
    obtain ⟨vm1, hg, -, -, rfl⟩ := newObject_ok_inv hr
    rcases hg with ⟨-, hg⟩ | ⟨hne, -⟩
    · have hcap := (gc_frame hg).2.2
      refine ⟨by simp only [hcap]; ring, fun hc => ?_⟩
      have := gc_consistent hc hg
      unfold Consistent at this
      simp only [hcap, this, List.length_cons]
      push_cast
      ring
    · exact absurd he hne

/-- Witness of C8: after `gc` in the cyclic state of `test4` four objects
remain and the threshold is 8. -/
theorem gc_threshold_witness :
    ∃ vm2, gc cycleVM = .ok vm2 ∧ vm2.numAllocatedObj = 4 ∧ vm2.maxGCCapacity = 8 :=
  ⟨_, rfl, rfl, ((gc_threshold cycleVM).2.1 _ rfl).1⟩

/-! ## The invariant of the driver's operations -/

theorem lookup_of_mem_nodup {h : List _Object} (hn : (addrs h).Nodup) {o : _Object}
    (ho : o ∈ h) : lookup h o.addr = some o := by
  induction h with
  | nil => cases ho
  | cons x xs ih =>
    simp only [addrs, List.map_cons, List.nodup_cons] at hn
    rcases List.mem_cons.mp ho with rfl | ho
    · simp [lookup, List.find?_cons]
    · have hne : x.addr ≠ o.addr := by
        intro he
        exact hn.1 (he ▸ List.mem_map.mpr ⟨o, ho, rfl⟩)
      have := ih hn.2 ho
      simpa [lookup, List.find?_cons, hne] using this

theorem gc_keeps_reachable {vm vm2 : VM} (hu : AllUnmarked vm.head) (hr : gc vm = .ok vm2)
    {a : Addr} (ha : Reachable vm a) : a ∈ addrs vm2.head := by
  obtain ⟨w, hw, hwa, hhead, -⟩ := gc_spec hu hr
  have haw : a ∈ w := (hw a).mpr ha
  obtain ⟨o, ho, hoa⟩ := mem_addrs_iff.mp (hwa a haw)
  rw [hhead]
  refine mem_addrs_iff.mpr ⟨o, List.mem_filter.mpr ⟨ho, ?_⟩, hoa⟩
  rw [hoa]
  exact decide_eq_true haw

theorem gc_head_sublist {vm vm2 : VM} (hu : AllUnmarked vm.head) (hr : gc vm = .ok vm2) :
    vm2.head.Sublist vm.head := by
  obtain ⟨w, -, -, hhead, -⟩ := gc_spec hu hr
  rw [hhead]
  exact List.filter_sublist _

theorem isRoot_reachable {vm : VM} {a : Addr} (h : IsRoot vm a) : Reachable vm a :=
  ⟨a, h, Relation.ReflTransGen.refl⟩

theorem gc_inv {vm vm2 : VM} (hi : Inv vm) (hr : gc vm = .ok vm2) : Inv vm2 := by
  obtain ⟨hst, hsz, -⟩ := gc_frame hr
  have hsub := gc_head_sublist hi.unmarked hr
  have hsuba : (addrs vm2.head).Sublist (addrs vm.head) := hsub.map _
  refine ⟨gc_flags_clear hr, ⟨?_, ?_⟩, gc_consistent hi.consistent hr, by rw [hsz]; exact hi.size,
    hi.nodup.sublist hsuba, fun h => hi.nonnull (hsuba.subset h), ?_⟩
  · rintro a ⟨i, hlt, rfl⟩
    rw [hst]
    rw [hsz] at hlt
    exact gc_keeps_reachable hi.unmarked hr (isRoot_reachable ⟨i, hlt, rfl⟩)
  · intro o ho ht
    obtain ⟨w, hw, -, hhead, -⟩ := gc_spec hi.unmarked hr
    rw [hhead] at ho
    obtain ⟨hmem, hdec⟩ := List.mem_filter.mp ho
    have hreach : Reachable vm o.addr := (hw _).mp (of_decide_eq_true hdec)
    have hl := lookup_of_mem_nodup hi.nodup hmem
    obtain ⟨r, hroot, hp⟩ := hreach
    exact ⟨gc_keeps_reachable hi.unmarked hr
        ⟨r, hroot, hp.tail ⟨o, hl, ht, Or.inl rfl⟩⟩,
      gc_keeps_reachable hi.unmarked hr ⟨r, hroot, hp.tail ⟨o, hl, ht, Or.inr rfl⟩⟩⟩
  · exact le_trans (gc_counter_le hr).1 hi.counter

theorem pop_inv {vm vm2 : VM} {x : Addr} (hi : Inv vm) (hr : pop vm = .ok (vm2, x)) :
    Inv vm2 := by
  obtain ⟨hs, rfl, -⟩ := pop_ok_inv hr
  refine ⟨hi.unmarked, ⟨?_, hi.closed.2⟩, hi.consistent, ?_, hi.nodup, hi.nonnull, hi.counter⟩
  · rintro a ⟨i, hlt, rfl⟩
    exact hi.closed.1 _ ⟨i, by simp only at hlt; omega, rfl⟩
  · have := hi.size
    simp only
    omega

/-- The state after an object at a new address `a` was put in front of the
registry and its address stored in the stack slot `k`, at or below the top. -/
theorem alloc_push_inv {vm : VM} (hi : Inv vm) (o : _Object) (k : Int)
    (h0 : o.addr ≠ NULL) (hf : o.addr ∉ addrs vm.head) (hm : o.marked = 0)
    (hl : o.type = ObjectType.OBJ_PAIR → o.head ∈ addrs vm.head ∧ o.tail ∈ addrs vm.head)
    (hn : vm.numAllocatedObj + 1 ≤ INT_MAX)
    (hk : 0 ≤ k ∧ k ≤ vm.stackSize ∧ k < STACK_MAX) :
    Inv { vm with
      stack := Function.update vm.stack k.toNat o.addr
      stackSize := k + 1
      head := o :: vm.head
      numAllocatedObj := vm.numAllocatedObj + 1 } := by
  refine ⟨?_, ⟨?_, ?_⟩, ?_, ?_, ?_, ?_, hn⟩
  · intro x hx
    rcases List.mem_cons.mp hx with rfl | hx
    · exact hm
    · exact hi.unmarked x hx
  · rintro a ⟨i, hlt, rfl⟩
    simp only at hlt ⊢
    by_cases hik : i = k.toNat
    · rw [hik, Function.update_same]
      simp [addrs]
    · rw [Function.update_noteq hik]
      have : (i : Int) < vm.stackSize := by omega
      have := hi.closed.1 _ ⟨i, this, rfl⟩
      simp only [addrs, List.map_cons, List.mem_cons] at this ⊢
      exact Or.inr this
  · intro x hx ht
    simp only [addrs, List.map_cons, List.mem_cons]
    rcases List.mem_cons.mp hx with rfl | hx
    · exact ⟨Or.inr (hl ht).1, Or.inr (hl ht).2⟩
    · exact ⟨Or.inr (hi.closed.2 x hx ht).1, Or.inr (hi.closed.2 x hx ht).2⟩
  · have := hi.consistent
    unfold Consistent at this ⊢
    simp only [List.length_cons]
    push_cast
    omega
  · simp only
    omega
  · simp only [addrs, List.map_cons]
    exact List.nodup_cons.mpr ⟨hf, hi.nodup⟩
  · simp only [addrs, List.map_cons, List.mem_cons, not_or]
    exact ⟨fun h => h0 h.symm, hi.nonnull⟩

theorem map_update_fresh {f : _Object → _Object} {h : List _Object} {a : Addr}
    (hf : a ∉ addrs h) :
    h.map (fun o => if o.addr = a then f o else o) = h := by
  induction h with
  | nil => rfl
  | cons x xs ih =>
    simp only [addrs, List.map_cons, List.mem_cons, not_or] at hf
    rw [List.map_cons, ih hf.2, if_neg (fun h => hf.1 h.symm)]

theorem newObject_inv_pre {vm vm1 : VM} (hi : Inv vm)
    (hg : (vm.numAllocatedObj = vm.maxGCCapacity ∧ gc vm = .ok vm1)
        ∨ (vm.numAllocatedObj ≠ vm.maxGCCapacity ∧ vm1 = vm)) : Inv vm1 := by
  rcases hg with ⟨-, hg⟩ | ⟨-, rfl⟩
  · exact gc_inv hi hg
  · exact hi

theorem pushInt_heap {h : List _Object} {a : Addr} {v : Int} (hf : a ∉ addrs h) :
    setValue
        ({ addr := a, type := ObjectType.OBJ_INT, marked := 0, value := 0,
           head := NULL, tail := NULL } :: h) a v
      = { addr := a, type := ObjectType.OBJ_INT, marked := 0, value := v,
          head := NULL, tail := NULL } :: h := by
  unfold setValue
  rw [List.map_cons, map_update_fresh hf]
  simp

theorem pushInt_inv {vm vm2 : VM} {a : Addr} {v : Int} (hi : Inv vm)
    (hr : pushInt vm a v = .ok vm2) : Inv vm2 := by
  obtain ⟨vm1, hn, hs, rfl⟩ := pushInt_ok_inv hr
  obtain ⟨vm0, hg, hfresh, hcnt, rfl⟩ := newObject_ok_inv hn
  have hi0 := newObject_inv_pre hi hg
  simp only at hs ⊢
  rw [pushInt_heap hfresh.2]
  exact alloc_push_inv hi0 ⟨a, ObjectType.OBJ_INT, 0, v, NULL, NULL⟩ vm0.stackSize
    hfresh.1 hfresh.2 rfl (fun h => by cases h) hcnt ⟨hs.1, le_refl _, hs.2⟩

theorem pushPair_heap {h : List _Object} {a t hd : Addr} (hf : a ∉ addrs h) :
    setHead (setTail
        ({ addr := a, type := ObjectType.OBJ_PAIR, marked := 0, value := 0,
           head := NULL, tail := NULL } :: h) a t) a hd
      = { addr := a, type := ObjectType.OBJ_PAIR, marked := 0, value := 0,
          head := hd, tail := t } :: h := by
  unfold setHead setTail
  rw [List.map_cons, map_update_fresh hf]
  simp only [if_true]
  rw [List.map_cons, map_update_fresh hf]
  simp

theorem pushPair_inv {vm vm2 : VM} {a p : Addr} (hi : Inv vm)
    (hr : pushPair vm a = .ok (vm2, p)) : Inv vm2 := by
  obtain ⟨vm1, hn, -, hs, rfl⟩ := pushPair_ok_inv hr
  obtain ⟨vm0, hg, hfresh, hcnt, rfl⟩ := newObject_ok_inv hn
  have hi0 := newObject_inv_pre hi hg
  simp only at hs ⊢
  rw [pushPair_heap hfresh.2]
  have hS : STACK_MAX = 256 := rfl
  refine alloc_push_inv hi0
    ⟨a, ObjectType.OBJ_PAIR, 0, 0, vm0.stack (vm0.stackSize - 1 - 1).toNat,
      vm0.stack (vm0.stackSize - 1).toNat⟩
    (vm0.stackSize - 1 - 1) hfresh.1 hfresh.2 rfl ?_ hcnt ⟨by omega, by omega, by omega⟩
  intro _
  refine ⟨hi0.closed.1 _ ⟨(vm0.stackSize - 1 - 1).toNat, by omega, rfl⟩,
    hi0.closed.1 _ ⟨(vm0.stackSize - 1).toNat, by omega, rfl⟩⟩

theorem addrs_setHead (h : List _Object) (p q : Addr) : addrs (setHead h p q) = addrs h :=
  addrs_map_of_addr (fun o => by split <;> rfl) h

theorem addrs_setTail (h : List _Object) (p q : Addr) : addrs (setTail h p q) = addrs h :=
  addrs_map_of_addr (fun o => by split <;> rfl) h

theorem assignHead_inv {vm : VM} (hi : Inv vm) (p : Addr) {q : Addr}
    (hq : q ∈ addrs vm.head) : Inv { vm with head := setHead vm.head p q } := by
  refine ⟨?_, ⟨?_, ?_⟩, ?_, hi.size, ?_, ?_, hi.counter⟩
  · intro x hx
    obtain ⟨y, hy, rfl⟩ := List.mem_map.mp hx
    have := hi.unmarked y hy
    split <;> exact this
  · intro a ha
    simp only [addrs_setHead]
    exact hi.closed.1 a ha
  · intro x hx ht
    simp only [addrs_setHead]
    obtain ⟨y, hy, rfl⟩ := List.mem_map.mp hx
    by_cases hp : y.addr = p
    · rw [if_pos hp] at ht ⊢
      exact ⟨hq, (hi.closed.2 y hy ht).2⟩
    · rw [if_neg hp] at ht ⊢
      exact hi.closed.2 y hy ht
  · have := hi.consistent
    unfold Consistent at this ⊢
    simp only [length_setHead]
    exact this
  · simp only [addrs_setHead]; exact hi.nodup
  · simp only [addrs_setHead]; exact hi.nonnull

theorem assignTail_inv {vm : VM} (hi : Inv vm) (p : Addr) {q : Addr}
    (hq : q ∈ addrs vm.head) : Inv { vm with head := setTail vm.head p q } := by
  refine ⟨?_, ⟨?_, ?_⟩, ?_, hi.size, ?_, ?_, hi.counter⟩
  · intro x hx
    obtain ⟨y, hy, rfl⟩ := List.mem_map.mp hx
    have := hi.unmarked y hy
    split <;> exact this
  · intro a ha
    simp only [addrs_setTail]
    exact hi.closed.1 a ha
  · intro x hx ht
    simp only [addrs_setTail]
    obtain ⟨y, hy, rfl⟩ := List.mem_map.mp hx
    by_cases hp : y.addr = p
    · rw [if_pos hp] at ht ⊢
      exact ⟨(hi.closed.2 y hy ht).1, hq⟩
    · rw [if_neg hp] at ht ⊢
      exact hi.closed.2 y hy ht
  · have := hi.consistent
    unfold Consistent at this ⊢
    simp only [length_setTail]
    exact this
  · simp only [addrs_setTail]; exact hi.nodup
  · simp only [addrs_setTail]; exact hi.nonnull

theorem newVM_inv : Inv newVM := by
  refine ⟨?_, ⟨?_, ?_⟩, rfl, by decide, List.nodup_nil, ?_, by decide⟩
  · intro o ho; cases ho
  · rintro a ⟨i, hlt, -⟩
    have : (0 : Int) ≤ (i : Int) := Int.natCast_nonneg i
    have h0 : newVM.stackSize = 0 := rfl
    omega
  · intro o ho; cases ho
  · intro h; cases h

theorem step_inv {vm vm2 : VM} {op : Op} (hi : Inv vm) (hr : step vm op = .ok vm2) :
    Inv vm2 := by
  cases op with
  | pushInt a v => exact pushInt_inv hi hr
  | pushPair a =>
    simp only [step] at hr
    cases hp : pushPair vm a with
    | error e => rw [hp] at hr; simp at hr
    | ok r =>
      obtain ⟨vm3, p⟩ := r
      rw [hp] at hr
      simp only [Except.ok.injEq] at hr
      rw [← hr]
      exact pushPair_inv hi hp
  | pop =>
    simp only [step] at hr
    cases hp : pop vm with
    | error e => rw [hp] at hr; simp at hr
    | ok r =>
      obtain ⟨vm3, p⟩ := r
      rw [hp] at hr
      simp only [Except.ok.injEq] at hr
      rw [← hr]
      exact pop_inv hi hp
  | gc => exact gc_inv hi hr
  | assignHead p q =>
    simp only [step] at hr
    cases hl : lookup vm.head p with
    | none => rw [hl] at hr; simp at hr
    | some o =>
      rw [hl] at hr
      simp only at hr
      by_cases hc : o.type = ObjectType.OBJ_PAIR ∧ q ∈ addrs vm.head
      · rw [if_pos hc] at hr
        simp only [Except.ok.injEq] at hr
        rw [← hr]
        exact assignHead_inv hi p hc.2
      · rw [if_neg hc] at hr; simp at hr
  | assignTail p q =>
    simp only [step] at hr
    cases hl : lookup vm.head p with
    | none => rw [hl] at hr; simp at hr
    | some o =>
      rw [hl] at hr
      simp only at hr
      by_cases hc : o.type = ObjectType.OBJ_PAIR ∧ q ∈ addrs vm.head
      · rw [if_pos hc] at hr
        simp only [Except.ok.injEq] at hr
        rw [← hr]
        exact assignTail_inv hi p hc.2
      · rw [if_neg hc] at hr; simp at hr

/-- Every state reached from `newVM()` satisfies the invariant. -/
theorem reachableState_inv {vm : VM} (hr : ReachableState vm) : Inv vm := by
  obtain ⟨ops, ho⟩ := hr
  exact run_invariant Inv (fun _ _ _ hI hs => step_inv hI hs) ops newVM vm newVM_inv ho

theorem gcReady_of_inv {vm : VM} (hi : Inv vm) (hlen : (vm.head.length : Int) * 2 ≤ INT_MAX) :
    GcReady vm :=
  ⟨hi.closed, hi.size.2, hi.consistent, hlen⟩

/-! ## C9, C10 -/

theorem unmarkedCount_of_allUnmarked {h : List _Object} (hu : AllUnmarked h) :
    unmarkedCount h = h.length := by
  unfold unmarkedCount
  rw [List.filter_eq_self.mpr]
  intro o ho
  exact decide_eq_true (hu o ho)

theorem filter_marked_of_allUnmarked {h : List _Object} (hu : AllUnmarked h) :
    h.filter (fun o => decide (o.marked ≠ 0)) = [] := by
  rw [List.filter_eq_nil_iff]
  intro o ho
  simp [hu o ho]

theorem fullVM_reachable : ReachableState fullVM :=
  ⟨[.pushInt 1 10, .pushInt 2 20, .pushInt 3 30, .pushInt 4 40, .pushInt 5 50,
      .pushInt 6 60, .pushInt 7 70, .pushInt 8 80], rfl⟩

/-- C9 (contract of `pushPair`): in a state reached from `newVM()` with at
least two roots, whether or not the allocation collects, a call of `pushPair`
that returns gives the address `p` of an unmarked `OBJ_PAIR` that is new (the
first of the registry, in front of objects of the old registry, none of them
at `p`), whose `tail` is the old top of the stack and whose `head` is the
slot below, both still in the registry; the stack is one shorter, holds `p`
on top and is unchanged below.  The call returns when `new` gives a non-null
address of no existing object and the counter can be doubled.  The
operations of `test3` leave one root and seven objects. -/
theorem pushPair_contract (vm : VM) (a : Addr) (hr : ReachableState vm)
    (h2 : 2 ≤ vm.stackSize) :
    (a ≠ NULL → a ∉ addrs vm.head → (vm.head.length : Int) * 2 ≤ INT_MAX →
        vm.numAllocatedObj + 1 ≤ INT_MAX → ∃ vm2, pushPair vm a = .ok (vm2, a))
    ∧ (∀ vm2 p, pushPair vm a = .ok (vm2, p) →
        ∃ o rest, p = a ∧ vm2.head = o :: rest ∧ rest.Sublist vm.head ∧ p ∉ addrs rest
          ∧ lookup vm2.head p = some o
          ∧ o.addr = p ∧ o.type = ObjectType.OBJ_PAIR ∧ o.marked = 0
          ∧ o.tail = vm.stack (vm.stackSize - 1).toNat
          ∧ o.head = vm.stack (vm.stackSize - 2).toNat
          ∧ o.tail ∈ addrs rest ∧ o.head ∈ addrs rest
          ∧ vm2.stackSize = vm.stackSize - 1
          ∧ vm2.stack (vm.stackSize - 2).toNat = p
          ∧ ∀ i : Nat, (i : Int) < vm.stackSize - 2 → vm2.stack i = vm.stack i)
    ∧ (∃ vm3, run newVM test3Ops = .ok vm3 ∧ vm3.stackSize = 1
        ∧ vm3.numAllocatedObj = 7 ∧ vm3.head.length = 7) := by
  have hi := reachableState_inv hr
  refine ⟨?_, ?_, ⟨_, rfl, rfl, rfl, rfl⟩⟩
  · intro h0 hf hlen hn
    obtain ⟨vm1, hn1⟩ := newObject_returns ObjectType.OBJ_PAIR (gcReady_of_inv hi hlen) h0 hf hn
    obtain ⟨vm0, hg, -, -, e⟩ := newObject_ok_inv hn1
    have hsz : vm1.stackSize = vm.stackSize := by
      rw [e]
      rcases hg with ⟨-, hg⟩ | ⟨-, rfl⟩
      · exact (gc_frame hg).2.1
      · rfl
    exact pushPair_ok_intro hn1 (by rw [hsz]; exact h2) (by rw [hsz]; exact hi.size.2)
  · intro vm2 p hp
    obtain ⟨vm1, hn1, hpa, hs, rfl⟩ := pushPair_ok_inv hp
    obtain ⟨vm0, hg, hfresh, -, rfl⟩ := newObject_ok_inv hn1
    have hi0 := newObject_inv_pre hi hg
    have hframe : vm0.stack = vm.stack ∧ vm0.stackSize = vm.stackSize := by
      rcases hg with ⟨-, hg⟩ | ⟨-, rfl⟩
      · exact ⟨(gc_frame hg).1, (gc_frame hg).2.1⟩
      · exact ⟨rfl, rfl⟩
    have hsub : vm0.head.Sublist vm.head := by
      rcases hg with ⟨-, hg⟩ | ⟨-, rfl⟩
      · exact gc_head_sublist hi.unmarked hg
      · exact List.Sublist.refl _
    simp only at hs ⊢
    rw [pushPair_heap hfresh.2, hframe.1, hframe.2]
    rw [hframe.2] at hs
    have e2 : vm.stackSize - 1 - 1 = vm.stackSize - 2 := by ring
    rw [e2]
    subst hpa
    refine ⟨_, vm0.head, rfl, rfl, hsub, hfresh.2, ?_, rfl, rfl, rfl, rfl, rfl, ?_, ?_, by ring,
      ?_, ?_⟩
    · simp [lookup, List.find?_cons]
    · exact hi0.closed.1 _ ⟨(vm.stackSize - 1).toNat, by rw [hframe.2]; omega,
        by rw [hframe.1]⟩
    · exact hi0.closed.1 _ ⟨(vm.stackSize - 2).toNat, by rw [hframe.2]; omega,
        by rw [hframe.1]⟩
    · exact Function.update_same _ _ _
    · intro i hlt
      exact Function.update_noteq (by omega) _ _

/-- Witness of C9: with eight scalars on the stack the counter is at the
threshold, the allocation inside `pushPair` collects, and the new pair at 9
gets the objects at 7 and 8, which are kept. -/
theorem pushPair_contract_witness :
    ReachableState fullVM ∧ 2 ≤ fullVM.stackSize
    ∧ fullVM.numAllocatedObj = fullVM.maxGCCapacity
    ∧ ∃ vm2, pushPair fullVM 9 = .ok (vm2, 9)
        ∧ lookup vm2.head 9
            = some { addr := 9, type := .OBJ_PAIR, marked := 0, value := 0, head := 7, tail := 8 }
        ∧ addrs vm2.head = [9, 8, 7, 6, 5, 4, 3, 2, 1]
        ∧ vm2.stackSize = 7 ∧ vm2.maxGCCapacity = 16 :=
  ⟨fullVM_reachable, by decide, rfl,
    let ⟨vm2, h⟩ := (pushPair_contract fullVM 9 fullVM_reachable (by decide)).1
      (by decide) (by decide) (by decide) (by decide)
    ⟨vm2, h, by
      cases (Except.ok.inj (h.symm.trans (rfl : pushPair fullVM 9 = .ok _)))
      exact ⟨rfl, rfl, rfl, rfl⟩⟩⟩

/-- C10 (teardown): in a state whose counter is the number of objects (and a
value of `int`) and whose flags are all clear, as in every state reached from
`newVM()`, whatever the root stack holds, `freeVM` returns and the `gc` it
runs after `stackSize = 0` leaves `numAllocatedObj == 0` and an empty
registry. -/
theorem freeVM_releases_all (vm : VM)
    (h : (Consistent vm ∧ AllUnmarked vm.head ∧ vm.numAllocatedObj ≤ INT_MAX)
      ∨ ReachableState vm) :
    ∃ vm2, freeVM vm = .ok vm2 ∧ vm2.numAllocatedObj = 0 ∧ vm2.head = []
      ∧ vm2.stackSize = 0 := by
  have h3 : Consistent vm ∧ AllUnmarked vm.head ∧ vm.numAllocatedObj ≤ INT_MAX := by
    rcases h with h | h
    · exact h
    · have hi := reachableState_inv h
      exact ⟨hi.consistent, hi.unmarked, hi.counter⟩
  obtain ⟨hc, hu, hn⟩ := h3
  unfold Consistent at hc
  have hmin : INT_MIN = -2147483648 := rfl
  have hmax : INT_MAX = 2147483647 := rfl
  have hcount := unmarkedCount_of_allUnmarked hu
  have hm : markAllLoop ({ vm with stackSize := 0 } : VM).stack
      (List.range ({ vm with stackSize := 0 } : VM).stackSize.toNat)
      ({ vm with stackSize := 0 } : VM).head = .ok vm.head := rfl
  have a1 : ((unmarkedCount vm.head : Nat) : Int) ≤ INT_MAX := by rw [hcount]; omega
  have a2 : INT_MIN ≤ (vm.numAllocatedObj - ((unmarkedCount vm.head : Nat) : Int)) * 2 := by
    rw [hcount]; omega
  have a3 : (vm.numAllocatedObj - ((unmarkedCount vm.head : Nat) : Int)) * 2 ≤ INT_MAX := by
    rw [hcount]; omega
  have hg := gc_ok_intro hm hn a1 a2 a3
  refine ⟨_, hg, ?_, ?_, rfl⟩
  · show vm.numAllocatedObj - ((unmarkedCount vm.head : Nat) : Int) = 0
    rw [hcount]; omega
  · show (vm.head.filter (fun o => decide (o.marked ≠ 0))).map
        (fun o => { o with marked := 0 }) = []
    rw [filter_marked_of_allUnmarked hu, List.map_nil]

/-- Witness of C10: the cyclic state of `test4`, with two roots on the
stack, is torn down to nothing. -/
theorem freeVM_releases_all_witness :
    (Consistent cycleVM ∧ AllUnmarked cycleVM.head ∧ cycleVM.numAllocatedObj ≤ INT_MAX)
    ∧ ∃ vm2, freeVM cycleVM = .ok vm2 ∧ vm2.numAllocatedObj = 0 ∧ vm2.head = []
      ∧ vm2.stackSize = 0 :=
  ⟨⟨rfl, cycleVM_allUnmarked, by decide⟩,
    freeVM_releases_all cycleVM (Or.inl ⟨rfl, cycleVM_allUnmarked, by decide⟩)⟩

/-! ## A second collection -/

theorem lookup_filter_addr (w : List Addr) (h : List _Object) (a : Addr) :
    lookup (h.filter (fun o => decide (o.addr ∈ w))) a
      = if a ∈ w then lookup h a else none := by
  induction h with
  | nil => simp [lookup]
  | cons x xs ih =>
    unfold lookup at ih ⊢
    by_cases hx : x.addr ∈ w
    · by_cases hxa : x.addr = a
      · have : a ∈ w := hxa ▸ hx
        simp [List.filter_cons, hx, List.find?_cons, hxa, this]
      · simp only [List.filter_cons, hx, decide_True, if_true, List.find?_cons, hxa,
          decide_False]
        exact ih
    · by_cases hxa : x.addr = a
      · have : a ∉ w := hxa ▸ hx
        simp only [List.filter_cons, hx, decide_False, Bool.false_eq_true, if_false]
        rw [ih]
        simp [this]
      · simp only [List.filter_cons, hx, decide_False, Bool.false_eq_true, if_false,
          List.find?_cons, hxa]
        exact ih

theorem markAllLoop_ok_bound (stack : Nat → Addr) (is : List Nat) :
    ∀ (h h2 : List _Object), markAllLoop stack is h = .ok h2 →
      ∀ i ∈ is, (i : Int) < STACK_MAX := by
  induction is with
  | nil => intro _ _ _ i hi; cases hi
  | cons j js ih =>
    intro h h2 hr i hi
    unfold markAllLoop at hr
    by_cases hj : STACK_MAX ≤ (j : Int)
    · rw [if_pos hj] at hr; simp at hr
    · rw [if_neg hj] at hr
      cases h1 : mark h (stack j) with
      | error e => rw [h1] at hr; simp at hr
      | ok h3 =>
        rw [h1] at hr
        rcases List.mem_cons.mp hi with rfl | hi
        · exact not_le.mp hj
        · exact ih _ _ hr i hi

/-- The run of `gc` with what it prints. -/
theorem gcReport_ok_intro {vm : VM} {h1 : List _Object}
    (hm : markAllLoop vm.stack (List.range vm.stackSize.toNat) vm.head = .ok h1)
    (hn : vm.numAllocatedObj ≤ INT_MAX) (hu : (unmarkedCount h1 : Int) ≤ INT_MAX)
    (h0 : INT_MIN ≤ (vm.numAllocatedObj - (unmarkedCount h1 : Int)) * 2)
    (h2 : (vm.numAllocatedObj - (unmarkedCount h1 : Int)) * 2 ≤ INT_MAX) :
    gcReport vm = .ok ({ vm with
      head := (h1.filter (fun o => decide (o.marked ≠ 0))).map (fun o => { o with marked := 0 })
      numAllocatedObj := vm.numAllocatedObj - (unmarkedCount h1 : Int)
      maxGCCapacity := (vm.numAllocatedObj - (unmarkedCount h1 : Int)) * 2 },
      (unmarkedCount h1 : Int), vm.numAllocatedObj - (unmarkedCount h1 : Int)) := by
  have hmin : INT_MIN = -2147483648 := rfl
  have hmax : INT_MAX = 2147483647 := rfl
  obtain ⟨r, hs⟩ := sweepLoop_ok h1 vm.numAllocatedObj hn (by omega)
  obtain ⟨l, n⟩ := r
  obtain ⟨e1, e2⟩ := sweepLoop_spec _ _ _ _ hs
  have hnn : (0 : Int) ≤ (unmarkedCount h1 : Int) := Int.natCast_nonneg _
  have hsub : vm.numAllocatedObj - (vm.numAllocatedObj - (unmarkedCount h1 : Int))
      = (unmarkedCount h1 : Int) := by ring
  unfold gcReport markAll sweep
  rw [hm]
  simp only
  rw [hs]
  simp only
  rw [e2, checkInt_of_range h0 h2]
  simp only
  rw [hsub, checkInt_of_range (by omega) hu]
  simp only [e1]

/-- After a `gc` from a state with all flags clear, a second `gc` returns
the state it starts from and reports nothing collected. -/
theorem gcReport_after_gc {vm vm1 : VM} (hu : AllUnmarked vm.head) (hr : gc vm = .ok vm1) :
    gcReport vm1 = .ok (vm1, 0, vm1.numAllocatedObj) := by
  obtain ⟨w, hw, hwa, hhead, -⟩ := gc_spec hu hr
  obtain ⟨h1, hm, -, -, hcap, hst, hsz, hrange⟩ := gc_ok_inv hr
  have hu1 : AllUnmarked vm1.head := gc_flags_clear hr
  have hlook : ∀ a, a ∈ w → lookup vm1.head a = lookup vm.head a := by
    intro a ha
    rw [hhead, lookup_filter_addr, if_pos ha]
  have hroot : ∀ r, IsRoot vm r → IsRoot vm1 r := by
    rintro r ⟨i, hlt, rfl⟩
    exact ⟨i, by rw [hsz]; exact hlt, by rw [hst]⟩
  have hpath : ∀ r a, IsRoot vm r → Relation.ReflTransGen (Links vm.head) r a →
      Relation.ReflTransGen (Links vm1.head) r a := by
    intro r a hr0 hp
    induction hp with
    | refl => exact Relation.ReflTransGen.refl
    | tail hp0 hl ih =>
      refine ih.tail ?_
      obtain ⟨o, ho, ht, hb⟩ := hl
      exact ⟨o, by rw [hlook _ ((hw _).mpr ⟨r, hr0, hp0⟩)]; exact ho, ht, hb⟩
  have hreach : ∀ a, Reachable vm a → Reachable vm1 a := by
    rintro a ⟨r, hr0, hp⟩
    exact ⟨r, hroot r hr0, hpath r a hr0 hp⟩
  have hall : ∀ o ∈ vm1.head, Reachable vm1 o.addr := by
    intro o ho
    rw [hhead] at ho
    exact hreach _ ((hw _).mp (of_decide_eq_true (List.mem_filter.mp ho).2))
  have hvalid : LinksValid vm1.head := by
    rintro a b ⟨o, ho, ht, hb⟩
    have ha : a ∈ w := by
      by_contra hn
      rw [hhead, lookup_filter_addr, if_neg hn] at ho
      cases ho
    rw [hlook a ha] at ho
    obtain ⟨r, hr0, hp⟩ := (hw a).mp ha
    exact gc_keeps_reachable hu hr ⟨r, hr0, hp.tail ⟨o, ho, ht, hb⟩⟩
  have hbound := markAllLoop_ok_bound _ _ _ _ hm
  obtain ⟨h2, hm2⟩ : ∃ h2, markAllLoop vm1.stack (List.range vm1.stackSize.toNat) vm1.head
      = .ok h2 := by
    apply markAllLoop_ok_of_closed _ _ _ hvalid
    intro i hi
    rw [hsz] at hi
    refine ⟨hbound i hi, ?_⟩
    rw [hst]
    exact gc_keeps_reachable hu hr
      (isRoot_reachable ⟨i, Int.lt_toNat.mp (List.mem_range.mp hi), rfl⟩)
  have p := markAllLoop_post _ _ _ _ hm2
  have hmem : ∀ o ∈ vm1.head,
      o.addr ∈ markAllWrites vm1.stack (List.range vm1.stackSize.toNat) vm1.head :=
    fun o ho => (mem_writes_of_reachable hu1 p (hall o ho)).1
  have hcount : unmarkedCount h2 = 0 := by
    rw [p.heap, unmarkedCount_markSet_of_allUnmarked hu1, List.length_eq_zero,
      List.filter_eq_nil_iff]
    intro o ho
    simp [hmem o ho]
  have hkeep : (h2.filter (fun o => decide (o.marked ≠ 0))).map
      (fun o => { o with marked := 0 }) = vm1.head := by
    rw [p.heap, sweep_markSet_of_allUnmarked hu1, List.filter_eq_self]
    intro o ho
    exact decide_eq_true (hmem o ho)
  have hmin : INT_MIN = -2147483648 := rfl
  have hmax : INT_MAX = 2147483647 := rfl
  have hg := gcReport_ok_intro hm2 (by omega) (by rw [hcount]; simp only [Nat.cast_zero]; omega)
    (by rw [hcount]; simp only [Nat.cast_zero]; omega)
    (by rw [hcount]; simp only [Nat.cast_zero]; omega)
  rw [hg, hkeep, hcount]
  simp only [Nat.cast_zero, sub_zero]
  rw [← hcap]

theorem gc_after_gc {vm vm1 : VM} (hu : AllUnmarked vm.head) (hr : gc vm = .ok vm1) :
    gc vm1 = .ok vm1 := by
  unfold gc
  rw [gcReport_after_gc hu hr]

/-! ## C5, C6 -/

theorem unmarkedCount_markSet_add_le (w : List Addr) : ∀ (h : List _Object),
    w.Nodup → (∀ b ∈ w, UnmarkedAt h b) →
    unmarkedCount (markSet w h) + w.length ≤ unmarkedCount h := by
  induction w with
  | nil => intro h _ _; simp [markSet_nil]
  | cons b w ih =>
    intro h hn hf
    obtain ⟨hb, hn2⟩ := List.nodup_cons.mp hn
    obtain ⟨o, ho, hm⟩ := hf b (List.mem_cons_self _ _)
    have hlt := unmarkedCount_setMarked_lt ho hm
    have e : markSet (b :: w) h = markSet w (setMarked h b) := by
      rw [setMarked_eq_markSet, markSet_markSet]; rfl
    have := ih (setMarked h b) hn2 (by
      intro c hc
      rw [setMarked_eq_markSet, unmarkedAt_markSet]
      refine ⟨?_, hf c (List.mem_cons_of_mem _ hc)⟩
      intro hcb
      rw [List.mem_singleton] at hcb
      exact hb (hcb ▸ hc))
    rw [e, List.length_cons]
    omega

/-- C5 (cycle safety): on every registry, whatever the links are, `mark`
never uses up its budget and gives the same result with any larger budget,
and it returns when the links it can follow are valid; each call that passes
the guard lowers the number of unmarked objects; a returning call has changed
only flags, has written no flag twice, every write hit an object whose flag
was clear, and the number of unmarked objects went down by at least the
number of writes.  So a `gc` that returns from a state with clear flags and a
right counter has written no flag twice, leaves a sublist of the registry and
counts every survivor once.  A pair that points to itself is marked in one
write. -/
theorem mark_cycle_safe (h : List _Object) (a : Addr) :
    mark h a ≠ .error .fuel
    ∧ (∀ fuel, unmarkedCount h < fuel → markFuel fuel h a = mark h a)
    ∧ (LinksValid h → a ∈ addrs h → ∃ h2, mark h a = .ok h2)
    ∧ (∀ o, lookup h a = some o → o.marked = 0 →
        unmarkedCount (setMarked h a) < unmarkedCount h)
    ∧ (∀ h2, mark h a = .ok h2 →
        h2 = markSet (markWrites (unmarkedCount h + 1) h a) h
        ∧ (markWrites (unmarkedCount h + 1) h a).Nodup
        ∧ (∀ b ∈ markWrites (unmarkedCount h + 1) h a, UnmarkedAt h b)
        ∧ unmarkedCount h2 + (markWrites (unmarkedCount h + 1) h a).length ≤ unmarkedCount h)
    ∧ (∀ vm vm2, vm.head = h → AllUnmarked h → Consistent vm → gc vm = .ok vm2 →
        (markAllWrites vm.stack (List.range vm.stackSize.toNat) h).Nodup
        ∧ vm2.head.Sublist h
        ∧ vm2.numAllocatedObj = (vm2.head.length : Int))
    ∧ (mark selfPair 1
        = .ok [ { addr := 1, type := .OBJ_PAIR, marked := 1, value := 0, head := 1, tail := 1 } ]
      ∧ markWrites 2 selfPair 1 = [1]) := by
  refine ⟨markFuel_ne_fuel _ h a (Nat.lt_succ_self _), fun fuel hlt => markFuel_eq_mark a hlt,
    fun hv ha => mark_ok_of_closed hv ha, fun o ho hm => unmarkedCount_setMarked_lt ho hm,
    ?_, ?_, ⟨rfl, rfl⟩⟩
  · intro h2 hr
    have p := mark_post hr
    refine ⟨p.heap, p.nodup, p.fresh, ?_⟩
    rw [p.heap]
    exact unmarkedCount_markSet_add_le _ h p.nodup p.fresh
  · rintro vm vm2 rfl hu hc hr
    obtain ⟨h1, hm, -⟩ := gc_ok_inv hr
    exact ⟨(markAllLoop_post _ _ _ _ hm).nodup, gc_head_sublist hu hr, gc_consistent hc hr⟩

/-- Witness of C5: marking from the pair at 3 in the cycle of `test4` writes
the flags of 3, 1, 6 and 4 once each and leaves 5 and 2 clear. -/
theorem mark_cycle_safe_witness :
    markWrites (unmarkedCount cycleVM.head + 1) cycleVM.head 3 = [3, 1, 6, 4]
    ∧ ∃ h2, mark cycleVM.head 3 = .ok h2
        ∧ h2.map (fun o => (o.addr, o.marked)) = [(6, 1), (5, 0), (4, 1), (3, 1), (2, 0), (1, 1)]
        ∧ (markWrites (unmarkedCount cycleVM.head + 1) cycleVM.head 3).Nodup :=
  ⟨rfl, _, rfl, rfl, ((mark_cycle_safe cycleVM.head 3).2.2.2.2.1 _ rfl).2.1⟩

/-- C6 (idempotence of `gc`): from a state with all flags clear, when `gc`
has returned the state `vm1`, a second `gc` returns `vm1` again, so it leaves
the counter, the threshold, the registry with every field of every object and
the root stack as they are, and it reports zero objects collected; `gc`
returns in every ready state. -/
theorem gc_idempotent (vm : VM) (hu : AllUnmarked vm.head) :
    (GcReady vm → ∃ vm1, gc vm = .ok vm1)
    ∧ (∀ vm1, gc vm = .ok vm1 →
        gc vm1 = .ok vm1 ∧ gcReport vm1 = .ok (vm1, 0, vm1.numAllocatedObj)) :=
  ⟨gc_returns, fun _ hr => ⟨gc_after_gc hu hr, gcReport_after_gc hu hr⟩⟩

/-- Witness of C6: the cyclic state of `test4`; the first `gc` collects two
objects, the second none. -/
theorem gc_idempotent_witness :
    AllUnmarked cycleVM.head
    ∧ ∃ vm1, gcReport cycleVM = .ok (vm1, 2, 4) ∧ gc cycleVM = .ok vm1
        ∧ gc vm1 = .ok vm1 ∧ gcReport vm1 = .ok (vm1, 0, vm1.numAllocatedObj) :=
  ⟨cycleVM_allUnmarked, _, rfl, rfl, (gc_idempotent cycleVM cycleVM_allUnmarked).2 _ rfl⟩

/-! ## The root stack: C11, C12 -/

/-- The guard of `pop`, on every state. -/
theorem pop_underflow_iff (vm : VM) :
    pop vm = .error .stackUnderflow ↔ vm.stackSize ≤ 0 := by
  unfold pop
  by_cases h1 : vm.stackSize > 0
  · rw [if_neg (not_not.mpr h1)]
    constructor
    · intro h
      split at h <;> simp at h
    · intro h; omega
  · rw [if_pos h1]
    exact ⟨fun _ => not_lt.mp h1, fun _ => rfl⟩

/-- The guard of `push`, on every state. -/
theorem push_overflow_iff (vm : VM) (x : Addr) :
    push vm x = .error .stackOverflow ↔ STACK_MAX ≤ vm.stackSize := by
  unfold push
  by_cases h1 : vm.stackSize < STACK_MAX
  · rw [if_neg (not_not.mpr h1)]
    constructor
    · intro h
      split at h <;> simp at h
    · intro h; omega
  · rw [if_pos h1]
    exact ⟨fun _ => not_lt.mp h1, fun _ => rfl⟩

theorem pushAll_ok (xs : List Addr) : ∀ (vm : VM), 0 ≤ vm.stackSize →
    vm.stackSize + (xs.length : Int) ≤ STACK_MAX →
    ∃ vm2, pushAll vm xs = .ok vm2
      ∧ vm2.stackSize = vm.stackSize + (xs.length : Int)
      ∧ (∀ i : Nat, i < xs.length → vm2.stack (vm.stackSize.toNat + i) = xs.getD i NULL)
      ∧ (∀ i : Nat, (i : Int) < vm.stackSize → vm2.stack i = vm.stack i)
      ∧ vm2.head = vm.head ∧ vm2.numAllocatedObj = vm.numAllocatedObj
      ∧ vm2.maxGCCapacity = vm.maxGCCapacity := by
  induction xs with
  | nil =>
    intro vm _ _
    exact ⟨vm, rfl, by simp, by simp, fun _ _ => rfl, rfl, rfl, rfl⟩
  | cons x xs ih =>
    intro vm h0 hlen
    simp only [List.length_cons, Nat.cast_add, Nat.cast_one] at hlen
    have hnn : (0 : Int) ≤ (xs.length : Int) := Int.natCast_nonneg _
    have hp := push_ok_intro x h0 (by omega)
    obtain ⟨vm2, hr, hsz, hnew, hold, hh, hn, hc⟩ := ih
      { vm with
        stack := Function.update vm.stack vm.stackSize.toNat x
        stackSize := vm.stackSize + 1 }
      (by simp only; omega) (by simp only; omega)
    simp only at hsz hnew hold hh hn hc
    refine ⟨vm2, ?_, ?_, ?_, ?_, hh, hn, hc⟩
    · unfold pushAll
      rw [hp]
      exact hr
    · rw [hsz]
      simp only [List.length_cons, Nat.cast_add, Nat.cast_one]
      ring
    · intro i hi
      cases i with
      | zero =>
        rw [Nat.add_zero, hold _ (by omega), Function.update_same]
        rfl
      | succ j =>
        have := hnew j (by simpa using hi)
        have e : (vm.stackSize + 1).toNat + j = vm.stackSize.toNat + (j + 1) := by omega
        rw [e] at this
        rw [this]
        rfl
    · intro i hi
      rw [hold i (by omega), Function.update_noteq (by omega)]

/-- C11 (contract of `pop`): on a stack whose size is within its array, as
it is in every state reached from `newVM()`, `pop` fails with `Stack Underflow` exactly when `stackSize == 0`; otherwise
it returns `stack[stackSize - 1]` and the state differs only in `stackSize`,
which is one less.  So after `push(vm, x)` on a stack that is not full, `pop`
returns `x` and the size and the occupied slots are as before, as are the
registry and the counters. -/
theorem pop_contract (vm : VM)
    (hv : (0 ≤ vm.stackSize ∧ vm.stackSize ≤ STACK_MAX) ∨ ReachableState vm) :
    (pop vm = .error .stackUnderflow ↔ vm.stackSize = 0)
    ∧ (vm.stackSize ≠ 0 →
        pop vm = .ok ({ vm with stackSize := vm.stackSize - 1 },
          vm.stack (vm.stackSize - 1).toNat))
    ∧ (∀ x, vm.stackSize < STACK_MAX →
        ∃ vm1 vm2, push vm x = .ok vm1 ∧ pop vm1 = .ok (vm2, x)
          ∧ vm2.stackSize = vm.stackSize
          ∧ (∀ i : Nat, (i : Int) < vm.stackSize → vm2.stack i = vm.stack i)
          ∧ vm2.head = vm.head ∧ vm2.numAllocatedObj = vm.numAllocatedObj
          ∧ vm2.maxGCCapacity = vm.maxGCCapacity) := by
  have hS : STACK_MAX = 256 := rfl
  have hs : 0 ≤ vm.stackSize ∧ vm.stackSize ≤ STACK_MAX :=
    hv.elim id (fun h => (reachableState_inv h).size)
  refine ⟨?_, ?_, ?_⟩
  · rw [pop_underflow_iff]
    omega
  · intro hne
    exact pop_ok_intro (by omega) hs.2
  · intro x hlt
    have hp := push_ok_intro x hs.1 hlt
    have hq := @pop_ok_intro
      { vm with
        stack := Function.update vm.stack vm.stackSize.toNat x
        stackSize := vm.stackSize + 1 }
      (by simp only; omega) (by simp only; omega)
    simp only at hq
    have e : vm.stackSize + 1 - 1 = vm.stackSize := by ring
    rw [e, Function.update_same] at hq
    refine ⟨_, _, hp, hq, rfl, ?_, rfl, rfl, rfl⟩
    intro i hi
    exact Function.update_noteq (by omega) _ _

/-- Witness of C11: the state of `test4` with the roots 3 and 6; `pop`
returns 6, and after `push` of 9 it returns 9. -/
theorem pop_contract_witness :
    (0 ≤ cycleVM.stackSize ∧ cycleVM.stackSize ≤ STACK_MAX)
    ∧ pop cycleVM = .ok ({ cycleVM with stackSize := 1 }, 6)
    ∧ ∃ vm1 vm2, push cycleVM 9 = .ok vm1 ∧ pop vm1 = .ok (vm2, 9)
        ∧ vm2.stackSize = cycleVM.stackSize :=
  ⟨by decide, (pop_contract cycleVM (Or.inl (by decide))).2.1 (by decide),
    let ⟨vm1, vm2, h1, h2, h3, _⟩ :=
      (pop_contract cycleVM (Or.inl (by decide))).2.2 9 (by decide)
    ⟨vm1, vm2, h1, h2, h3⟩⟩

/-- C12 (contract of `push`): the capacity `STACK_MAX` is 256, and on a
stack whose size is within its array, as it is in every state reached from
`newVM()`, `push` fails with `Stack Overflow`
exactly when `stackSize == 256` on entry; otherwise it stores `x` at index
`stackSize` and adds one to `stackSize`, every lower slot, the registry and
both counters staying as they are.  Hence from an empty stack 256 calls of
`push` succeed, and then every further one fails. -/
theorem push_contract (vm : VM) (x : Addr)
    (hv : (0 ≤ vm.stackSize ∧ vm.stackSize ≤ STACK_MAX) ∨ ReachableState vm) :
    STACK_MAX = 256
    ∧ (push vm x = .error .stackOverflow ↔ vm.stackSize = 256)
    ∧ (vm.stackSize ≠ 256 →
        push vm x = .ok { vm with
          stack := Function.update vm.stack vm.stackSize.toNat x
          stackSize := vm.stackSize + 1 })
    ∧ (∀ vm2, push vm x = .ok vm2 →
        vm2.stack vm.stackSize.toNat = x ∧ vm2.stackSize = vm.stackSize + 1
        ∧ (∀ i : Nat, (i : Int) < vm.stackSize → vm2.stack i = vm.stack i)
        ∧ vm2.head = vm.head ∧ vm2.numAllocatedObj = vm.numAllocatedObj
        ∧ vm2.maxGCCapacity = vm.maxGCCapacity)
    ∧ (vm.stackSize = 0 → ∀ xs : List Addr, xs.length = 256 →
        ∃ vm2, pushAll vm xs = .ok vm2 ∧ vm2.stackSize = 256
          ∧ (∀ i : Nat, i < 256 → vm2.stack i = xs.getD i NULL)
          ∧ ∀ y, push vm2 y = .error .stackOverflow) := by
  have hS : STACK_MAX = 256 := rfl
  have hs : 0 ≤ vm.stackSize ∧ vm.stackSize ≤ STACK_MAX :=
    hv.elim id (fun h => (reachableState_inv h).size)
  refine ⟨rfl, ?_, ?_, ?_, ?_⟩
  · rw [push_overflow_iff]
    omega
  · intro hne
    exact push_ok_intro x hs.1 (by omega)
  · intro vm2 hr
    obtain ⟨-, rfl⟩ := push_ok_inv hr
    refine ⟨Function.update_same _ _ _, rfl, ?_, rfl, rfl, rfl⟩
    intro i hi
    exact Function.update_noteq (by omega) _ _
  · intro h0 xs hlen
    obtain ⟨vm2, hr, hsz, hnew, -⟩ := pushAll_ok xs vm hs.1 (by rw [h0, hlen, hS]; decide)
    rw [h0, hlen] at hsz
    refine ⟨vm2, hr, by rw [hsz]; decide, ?_, ?_⟩
    · intro i hi
      have := hnew i (by rw [hlen]; exact hi)
      rw [h0] at this
      simpa using this
    · intro y
      rw [push_overflow_iff, hsz, hS]
      decide

/-- Witness of C12: a push of 9 on the two roots of `test4`. -/
theorem push_contract_witness :
    (0 ≤ cycleVM.stackSize ∧ cycleVM.stackSize ≤ STACK_MAX)
    ∧ ∃ vm2, push cycleVM 9 = .ok vm2 ∧ vm2.stack 2 = 9 ∧ vm2.stackSize = 3
        ∧ vm2.stack 0 = 3 ∧ vm2.stack 1 = 6 :=
  ⟨by decide, _, (push_contract cycleVM 9 (Or.inl (by decide))).2.2.1 (by decide),
    rfl, rfl, rfl, rfl⟩

/-! ## What `gc` reports: C13, C14 -/

theorem gcReport_ok_inv {vm vm2 : VM} {c r : Int} (hr : gcReport vm = .ok (vm2, c, r)) :
    gc vm = .ok vm2 ∧ c = vm.numAllocatedObj - vm2.numAllocatedObj
      ∧ r = vm2.numAllocatedObj := by
  have hg : gc vm = .ok vm2 := by
    unfold gc
    rw [hr]
  refine ⟨hg, ?_, ?_⟩
  · unfold gcReport at hr
    cases hm : markAll vm with
    | error e => rw [hm] at hr; simp at hr
    | ok vm1 =>
      rw [hm] at hr
      simp only at hr
      cases hs : sweep vm1 with
      | error e => rw [hs] at hr; simp at hr
      | ok vm3 =>
        rw [hs] at hr
        simp only at hr
        cases hc : checkInt (vm3.numAllocatedObj * 2) with
        | error e => rw [hc] at hr; simp at hr
        | ok cap =>
          rw [hc] at hr
          simp only at hr
          cases hd : checkInt (vm.numAllocatedObj - vm3.numAllocatedObj) with
          | error e => rw [hd] at hr; simp at hr
          | ok d =>
            rw [hd] at hr
            simp only [Except.ok.injEq, Prod.mk.injEq] at hr
            rw [← hr.2.1, ← hr.1]
            exact (checkInt_eq_ok.mp hd).2
  · unfold gcReport at hr
    cases hm : markAll vm with
    | error e => rw [hm] at hr; simp at hr
    | ok vm1 =>
      rw [hm] at hr
      simp only at hr
      cases hs : sweep vm1 with
      | error e => rw [hs] at hr; simp at hr
      | ok vm3 =>
        rw [hs] at hr
        simp only at hr
        cases hc : checkInt (vm3.numAllocatedObj * 2) with
        | error e => rw [hc] at hr; simp at hr
        | ok cap =>
          rw [hc] at hr
          simp only at hr
          cases hd : checkInt (vm.numAllocatedObj - vm3.numAllocatedObj) with
          | error e => rw [hd] at hr; simp at hr
          | ok d =>
            rw [hd] at hr
            simp only [Except.ok.injEq, Prod.mk.injEq] at hr
            rw [← hr.2.2, ← hr.1]

theorem gcReport_returns {vm : VM} (hw : GcReady vm) : ∃ r, gcReport vm = .ok r := by
  obtain ⟨vm2, hg⟩ := gc_returns hw
  unfold gc at hg
  cases hr : gcReport vm with
  | error e => rw [hr] at hg; simp at hg
  | ok r => exact ⟨r, rfl⟩

theorem length_filter_add_filter_not (w : List Addr) (h : List _Object) :
    ((h.filter (fun o => decide (o.addr ∈ w))).length : Int)
      + ((h.filter (fun o => decide (o.addr ∉ w))).length : Int) = (h.length : Int) := by
  induction h with
  | nil => simp
  | cons x xs ih =>
    by_cases hx : x.addr ∈ w
    · simp [List.filter_cons, hx] at ih ⊢
      omega
    · simp [List.filter_cons, hx] at ih ⊢
      omega

/-- C13 (collected count): from a state with a right counter and all flags
clear, the first number a returning `gc` prints is the counter on entry
minus the counter after `sweep`, it is not negative, and it is the number of
registry objects whose address is not reachable from the root stack; the
second number is the number of those whose address is reachable.  `gc`
returns in every ready state. -/
theorem gc_collected_count (vm : VM) (hc : Consistent vm) (hu : AllUnmarked vm.head) :
    (GcReady vm → ∃ r, gcReport vm = .ok r)
    ∧ (∀ vm2 collected remaining, gcReport vm = .ok (vm2, collected, remaining) →
        collected = vm.numAllocatedObj - vm2.numAllocatedObj
        ∧ remaining = vm2.numAllocatedObj
        ∧ 0 ≤ collected
        ∧ ∃ w : List Addr, (∀ a, a ∈ w ↔ Reachable vm a)
          ∧ collected = ((vm.head.filter (fun o => decide (o.addr ∉ w))).length : Int)
          ∧ remaining = ((vm.head.filter (fun o => decide (o.addr ∈ w))).length : Int)) := by
  refine ⟨gcReport_returns, ?_⟩
  intro vm2 c r hr
  obtain ⟨hg, ec, er⟩ := gcReport_ok_inv hr
  obtain ⟨w, hw, -, hhead, hn⟩ := gc_spec hu hg
  have hsum := length_filter_add_filter_not w vm.head
  unfold Consistent at hc
  have hc1 : c = ((vm.head.filter (fun o => decide (o.addr ∉ w))).length : Int) := by
    rw [ec, hn]; ring
  refine ⟨ec, er, ?_, w, hw, hc1, ?_⟩
  · rw [hc1]; exact Int.natCast_nonneg _
  · rw [er, hn]; omega

/-- Witness of C13: in the cyclic state of `test4` two of the six objects
are unreachable; `gc` reports 2 collected and 4 remaining. -/
theorem gc_collected_count_witness :
    Consistent cycleVM ∧ AllUnmarked cycleVM.head
    ∧ ∃ vm2, gcReport cycleVM = .ok (vm2, 2, 4)
        ∧ ∃ w : List Addr, (∀ a, a ∈ w ↔ Reachable cycleVM a)
          ∧ (2 : Int) = ((cycleVM.head.filter (fun o => decide (o.addr ∉ w))).length : Int)
          ∧ (4 : Int) = ((cycleVM.head.filter (fun o => decide (o.addr ∈ w))).length : Int) :=
  ⟨rfl, cycleVM_allUnmarked, _, rfl,
    ((gc_collected_count cycleVM rfl cycleVM_allUnmarked).2 _ 2 4 rfl).2.2.2⟩

/-- C14 (zero survivors): when a returning `gc` leaves the counter at zero,
or leaves an empty registry from a state whose counter was right, then
`maxGCCapacity` is 0 and equal to the counter, so that a call of `newObject`
in that state runs `gc` before it constructs its object; that call returns
when the flags were clear before the first `gc` and `new` gives a non-null
address of no existing object. -/
theorem zero_survivors_threshold (vm vm1 : VM) (hr : gc vm = .ok vm1)
    (h0 : vm1.numAllocatedObj = 0 ∨ (Consistent vm ∧ vm1.head = [])) :
    vm1.maxGCCapacity = 0 ∧ vm1.numAllocatedObj = vm1.maxGCCapacity
    ∧ (∀ ty a vm2, newObject vm1 ty a = .ok vm2 →
        ∃ vm1b o, gc vm1 = .ok vm1b ∧ vm2.head = o :: vm1b.head ∧ o.addr = a ∧ o.type = ty
          ∧ vm2.numAllocatedObj = vm1b.numAllocatedObj + 1)
    ∧ (AllUnmarked vm.head → ∀ ty a, a ≠ NULL → a ∉ addrs vm1.head →
        ∃ vm2, newObject vm1 ty a = .ok vm2) := by
  have hn : vm1.numAllocatedObj = 0 := by
    rcases h0 with h0 | ⟨hc, he⟩
    · exact h0
    · have := gc_consistent hc hr
      unfold Consistent at this
      rw [this, he]; rfl
  have hcap : vm1.maxGCCapacity = 0 := by
    rw [(gc_frame hr).2.2, hn]; rfl
  refine ⟨hcap, by rw [hn, hcap], ?_, ?_⟩
  · intro ty a vm2 hnew
    obtain ⟨vm1b, hg, -, -, rfl⟩ := newObject_ok_inv hnew
    rcases hg with ⟨-, hg⟩ | ⟨hne, -⟩
    · exact ⟨vm1b, _, hg, rfl, rfl, rfl, rfl⟩
    · exact absurd (by rw [hn, hcap]) hne
  · intro hu ty a ha hf
    have hg := gc_after_gc hu hr
    exact ⟨_, newObject_ok_intro ty (by rw [if_pos (by rw [hn, hcap])]; exact hg) ha hf
      (by rw [hn]; decide) (by rw [hn]; decide)⟩

/-- Witness of C14: `gc` in the idle state of `test2` leaves nothing, the
threshold is 0, and the next allocation collects first. -/
theorem zero_survivors_threshold_witness :
    ∃ vm1, gc idleVM = .ok vm1 ∧ vm1.numAllocatedObj = 0 ∧ vm1.maxGCCapacity = 0
      ∧ ∃ vm2, newObject vm1 ObjectType.OBJ_INT 5 = .ok vm2 ∧ vm2.numAllocatedObj = 1
          ∧ vm2.maxGCCapacity = 0 :=
  ⟨_, rfl, rfl, (zero_survivors_threshold idleVM _ rfl (Or.inl rfl)).1, _, rfl, rfl, rfl⟩

/-! ## No dangling pointer, `sweep` as a filter, the frame of `gc`: C16, C17, C19 -/

/-- C16 (no dangling references): in every state reached from `newVM()` by
`pushInt`, `pushPair`, `pop`, `gc` and assignments of a registry object to
the `head` or `tail` of a registry pair, every occupied root slot and the
`head` and `tail` of every `OBJ_PAIR` of the registry are addresses of
registry objects; the same holds after a `gc` from such a state, so that no
root and no link of a survivor is the address of an object that `gc`
destroyed. -/
theorem no_dangling_reference (vm : VM) (hr : ReachableState vm) :
    (∀ i : Nat, (i : Int) < vm.stackSize → vm.stack i ∈ addrs vm.head)
    ∧ (∀ o ∈ vm.head, o.type = ObjectType.OBJ_PAIR →
        o.head ∈ addrs vm.head ∧ o.tail ∈ addrs vm.head)
    ∧ (∀ vm2, gc vm = .ok vm2 →
        (∀ i : Nat, (i : Int) < vm2.stackSize → vm2.stack i ∈ addrs vm2.head)
        ∧ (∀ o ∈ vm2.head, o.type = ObjectType.OBJ_PAIR →
            o.head ∈ addrs vm2.head ∧ o.tail ∈ addrs vm2.head)
        ∧ (∀ d ∈ addrs vm.head, d ∉ addrs vm2.head →
            (∀ i : Nat, (i : Int) < vm2.stackSize → vm2.stack i ≠ d)
            ∧ (∀ o ∈ vm2.head, o.type = ObjectType.OBJ_PAIR → o.head ≠ d ∧ o.tail ≠ d))) := by
  have hi := reachableState_inv hr
  refine ⟨fun i hlt => hi.closed.1 _ ⟨i, hlt, rfl⟩, hi.closed.2, ?_⟩
  intro vm2 hg
  have hi2 := gc_inv hi hg
  have hroots : ∀ i : Nat, (i : Int) < vm2.stackSize → vm2.stack i ∈ addrs vm2.head :=
    fun i hlt => hi2.closed.1 _ ⟨i, hlt, rfl⟩
  refine ⟨hroots, hi2.closed.2, ?_⟩
  intro d _ hd
  refine ⟨fun i hlt he => hd (he ▸ hroots i hlt), fun o ho ht => ⟨?_, ?_⟩⟩
  · intro he
    exact hd (he ▸ (hi2.closed.2 o ho ht).1)
  · intro he
    exact hd (he ▸ (hi2.closed.2 o ho ht).2)

/-- Witness of C16: the state with eight scalars on the stack. -/
theorem no_dangling_reference_witness :
    ReachableState fullVM
    ∧ (∀ i : Nat, (i : Int) < fullVM.stackSize → fullVM.stack i ∈ addrs fullVM.head) :=
  ⟨fullVM_reachable, (no_dangling_reference fullVM fullVM_reachable).1⟩

/-- C17 (`sweep` as a filter): a call of `sweep` that returns leaves as
registry the objects of the old registry whose flag was set, in the same
order and with `marked == 0` and no other field changed; the counter has gone
down by the number of objects whose flag was clear; the stack, its size and
`maxGCCapacity` are as before.  The call returns when the counter is a value
of `int` and stays one while it is decremented. -/
theorem sweep_filter (vm : VM) :
    (vm.numAllocatedObj ≤ INT_MAX →
      INT_MIN ≤ vm.numAllocatedObj
        - ((vm.head.filter (fun o => decide (o.marked = 0))).length : Int) →
      ∃ vm2, sweep vm = .ok vm2)
    ∧ (∀ vm2, sweep vm = .ok vm2 →
        vm2.head = (vm.head.filter (fun o => decide (o.marked ≠ 0))).map
          (fun o => { o with marked := 0 })
        ∧ (vm.head.filter (fun o => decide (o.marked ≠ 0))).Sublist vm.head
        ∧ (∀ o ∈ vm2.head, o.marked = 0)
        ∧ vm2.numAllocatedObj = vm.numAllocatedObj
            - ((vm.head.filter (fun o => decide (o.marked = 0))).length : Int)
        ∧ vm2.stack = vm.stack ∧ vm2.stackSize = vm.stackSize
        ∧ vm2.maxGCCapacity = vm.maxGCCapacity) := by
  refine ⟨?_, ?_⟩
  · intro h1 h2
    obtain ⟨r, hs⟩ := sweepLoop_ok vm.head vm.numAllocatedObj h1 h2
    obtain ⟨l, n⟩ := r
    unfold sweep
    rw [hs]
    exact ⟨_, rfl⟩
  · intro vm2 hr
    rw [sweep_ok_inv hr]
    refine ⟨rfl, List.filter_sublist _, ?_, rfl, rfl, rfl, rfl⟩
    intro o ho
    obtain ⟨o1, -, rfl⟩ := List.mem_map.mp ho
    rfl

/-- Witness of C17: `sweep` on the state with the flags 7, 0, 1 keeps the
objects at 3 and 1 and takes the counter from 3 to 2. -/
theorem sweep_filter_witness :
    ∃ vm2, sweep dirtyVM = .ok vm2
      ∧ vm2.head.map (fun o => (o.addr, o.marked, o.value)) = [(3, 0, 30), (1, 0, 10)]
      ∧ vm2.numAllocatedObj = 2
      ∧ ∀ o ∈ vm2.head, o.marked = 0 :=
  ⟨_, rfl, rfl, rfl, ((sweep_filter dirtyVM).2 _ rfl).2.2.1⟩

theorem filter_markSet_map_clear (w : List Addr) (h : List _Object) :
    ∃ l : List _Object, l.Sublist h
      ∧ ((markSet w h).filter (fun o => decide (o.marked ≠ 0))).map
          (fun o => { o with marked := 0 })
        = l.map (fun o => { o with marked := 0 }) := by
  induction h with
  | nil => exact ⟨[], List.Sublist.refl _, by simp [markSet]⟩
  | cons x xs ih =>
    obtain ⟨l, hl, he⟩ := ih
    unfold markSet at he ⊢
    rw [List.map_cons, List.filter_cons]
    by_cases hw : x.addr ∈ w
    · refine ⟨x :: l, hl.cons₂ x, ?_⟩
      simp only [hw, if_true, ne_eq, one_ne_zero, not_false_eq_true, decide_True,
        List.map_cons]
      rw [he]
    · by_cases hx : x.marked = 0
      · refine ⟨l, hl.cons x, ?_⟩
        simp only [hw, if_false, hx, ne_eq, not_true_eq_false, decide_False,
          Bool.false_eq_true]
        exact he
      · refine ⟨x :: l, hl.cons₂ x, ?_⟩
        simp only [hw, if_false, hx, ne_eq, not_false_eq_true, decide_True, if_true,
          List.map_cons]
        rw [he]

/-- C19 (`gc` reads roots and topology only): a call of `gc` that returns
leaves `stackSize` and the whole stack array as they are, and its registry
is a sublist of the old one with the flags cleared, so every survivor has the
address, type, value, `head` and `tail` it had, in the same relative order;
what differs is the flags, the membership, the counter and the threshold.
`gc` returns in every ready state. -/
theorem gc_reads_only (vm : VM) :
    (GcReady vm → ∃ vm2, gc vm = .ok vm2)
    ∧ (∀ vm2, gc vm = .ok vm2 →
        vm2.stackSize = vm.stackSize ∧ vm2.stack = vm.stack
        ∧ (∀ i : Nat, (i : Int) < vm.stackSize → vm2.stack i = vm.stack i)
        ∧ (∃ l : List _Object, l.Sublist vm.head ∧ vm2.head = l.map (fun o => { o with marked := 0 }))
        ∧ (∀ o2 ∈ vm2.head, ∃ o ∈ vm.head, o2.addr = o.addr ∧ o2.type = o.type
            ∧ o2.value = o.value ∧ o2.head = o.head ∧ o2.tail = o.tail)) := by
  refine ⟨gc_returns, ?_⟩
  intro vm2 hr
  obtain ⟨h1, hm, e1, -⟩ := gc_ok_inv hr
  obtain ⟨hst, hsz, -⟩ := gc_frame hr
  have p := markAllLoop_post _ _ _ _ hm
  obtain ⟨l, hl, he⟩ := filter_markSet_map_clear
    (markAllWrites vm.stack (List.range vm.stackSize.toNat) vm.head) vm.head
  rw [← p.heap, ← e1] at he
  refine ⟨hsz, hst, fun i _ => by rw [hst], ⟨l, hl, he⟩, ?_⟩
  intro o2 ho2
  rw [he] at ho2
  obtain ⟨o, ho, rfl⟩ := List.mem_map.mp ho2
  exact ⟨o, hl.subset ho, rfl, rfl, rfl, rfl, rfl⟩

/-- Witness of C19: `gc` in the cyclic state of `test4` keeps the roots 3
and 6 and the links of the two pairs. -/
theorem gc_reads_only_witness :
    ∃ vm2, gc cycleVM = .ok vm2 ∧ vm2.stackSize = 2 ∧ vm2.stack 0 = 3 ∧ vm2.stack 1 = 6
      ∧ vm2.head.map (fun o => (o.addr, o.head, o.tail))
          = [(6, 4, 3), (4, 0, 0), (3, 1, 6), (1, 0, 0)]
      ∧ ∃ l : List _Object, l.Sublist cycleVM.head ∧ vm2.head = l.map (fun o => { o with marked := 0 }) :=
  ⟨_, rfl, rfl, rfl, rfl, rfl, ((gc_reads_only cycleVM).2 _ rfl).2.2.2.1⟩

/-! ## The trigger of the automatic collection: C15 -/

/-- Once the counter is above the threshold, an allocation does not collect
and leaves the counter above the threshold. -/
theorem newObject_above_threshold {vm vm2 : VM} {ty : ObjectType} {a : Addr}
    (hgt : vm.maxGCCapacity < vm.numAllocatedObj) (hr : newObject vm ty a = .ok vm2) :
    vm2.maxGCCapacity < vm2.numAllocatedObj ∧ vm2.maxGCCapacity = vm.maxGCCapacity
      ∧ vm2.head.length = vm.head.length + 1 := by
  obtain ⟨vm1, hg, -, -, rfl⟩ := newObject_ok_inv hr
  rcases hg with ⟨he, -⟩ | ⟨-, rfl⟩
  · omega
  · refine ⟨?_, rfl, rfl⟩
    simp only
    omega

/-- What does hold between operations: the counter is at most the threshold
unless the threshold is zero. -/
theorem newObject_trigger {vm vm2 : VM} {ty : ObjectType} {a : Addr}
    (hc : Consistent vm)
    (ht : vm.numAllocatedObj ≤ vm.maxGCCapacity ∨ vm.maxGCCapacity = 0)
    (hr : newObject vm ty a = .ok vm2) :
    vm2.numAllocatedObj ≤ vm2.maxGCCapacity ∨ vm2.maxGCCapacity = 0 := by
  obtain ⟨vm1, hg, -, -, rfl⟩ := newObject_ok_inv hr
  simp only
  rcases hg with ⟨-, hg⟩ | ⟨hne, rfl⟩
  · have hcap := (gc_frame hg).2.2
    have h1 := gc_consistent hc hg
    unfold Consistent at h1
    have hnn : (0 : Int) ≤ (vm1.head.length : Int) := Int.natCast_nonneg _
    omega
  · omega

theorem step_trigger {vm vm2 : VM} {op : Op}
    (hi : Inv vm ∧ (vm.numAllocatedObj ≤ vm.maxGCCapacity ∨ vm.maxGCCapacity = 0))
    (hr : step vm op = .ok vm2) :
    Inv vm2 ∧ (vm2.numAllocatedObj ≤ vm2.maxGCCapacity ∨ vm2.maxGCCapacity = 0) := by
  refine ⟨step_inv hi.1 hr, ?_⟩
  obtain ⟨hinv, ht⟩ := hi
  cases op with
  | pushInt a v =>
    obtain ⟨vm1, hn, -, rfl⟩ := pushInt_ok_inv hr
    exact (newObject_trigger hinv.consistent ht hn : _)
  | pushPair a =>
    simp only [step] at hr
    cases hp : pushPair vm a with
    | error e => rw [hp] at hr; simp at hr
    | ok r =>
      obtain ⟨vm3, p⟩ := r
      rw [hp] at hr
      simp only [Except.ok.injEq] at hr
      rw [← hr]
      obtain ⟨vm1, hn, -, -, rfl⟩ := pushPair_ok_inv hp
      exact (newObject_trigger hinv.consistent ht hn : _)
  | pop =>
    simp only [step] at hr
    cases hp : pop vm with
    | error e => rw [hp] at hr; simp at hr
    | ok r =>
      obtain ⟨vm3, p⟩ := r
      rw [hp] at hr
      simp only [Except.ok.injEq] at hr
      rw [← hr, (pop_ok_inv hp).2.1]
      exact ht
  | gc =>
    have hcap := (gc_frame hr).2.2
    have h1 := gc_consistent hinv.consistent hr
    unfold Consistent at h1
    have hnn : (0 : Int) ≤ (vm2.head.length : Int) := Int.natCast_nonneg _
    left
    omega
  | assignHead p q =>
    simp only [step] at hr
    cases hl : lookup vm.head p with
    | none => rw [hl] at hr; simp at hr
    | some o =>
      rw [hl] at hr
      simp only at hr
      split at hr
      · simp only [Except.ok.injEq] at hr
        rw [← hr]
        exact ht
      · simp at hr
  | assignTail p q =>
    simp only [step] at hr
    cases hl : lookup vm.head p with
    | none => rw [hl] at hr; simp at hr
    | some o =>
      rw [hl] at hr
      simp only at hr
      split at hr
      · simp only [Except.ok.injEq] at hr
        rw [← hr]
        exact ht
      · simp at hr

/-- C15 (the trigger can be stepped over): after `newVM()`, `gc`, `pushInt`
the counter is 1 and the threshold 0, so `numAllocatedObj <= maxGCCapacity`
does not hold in a state the operations reach; from any state with the
counter above the threshold an allocation does not collect and leaves the
counter above the unchanged threshold, so `numAllocatedObj == maxGCCapacity`
is not met again by allocating; after `test2` ten rounds of `pushInt` and `pop`
leave ten unreachable objects in the registry.  What holds in every state
reached is that the counter is at most the threshold or the threshold is
zero. -/
theorem trigger_stepped_over :
    (∃ vm, run newVM idleThenAllocOps = .ok vm ∧ ReachableState vm
      ∧ vm.numAllocatedObj = 1 ∧ vm.maxGCCapacity = 0
      ∧ ¬ (vm.numAllocatedObj ≤ vm.maxGCCapacity))
    ∧ (∀ vm ty a vm2, vm.maxGCCapacity < vm.numAllocatedObj →
        newObject vm ty a = .ok vm2 →
        vm2.maxGCCapacity < vm2.numAllocatedObj ∧ vm2.maxGCCapacity = vm.maxGCCapacity
        ∧ vm2.head.length = vm.head.length + 1)
    ∧ (∃ vm, run newVM garbageOps = .ok vm ∧ vm.stackSize = 0 ∧ vm.head.length = 10
        ∧ vm.numAllocatedObj = 10 ∧ vm.maxGCCapacity = 0)
    ∧ (∀ vm, ReachableState vm →
        vm.numAllocatedObj ≤ vm.maxGCCapacity ∨ vm.maxGCCapacity = 0) := by
  refine ⟨⟨_, rfl, ⟨idleThenAllocOps, rfl⟩, rfl, rfl, by decide⟩,
    fun _ _ _ _ hgt hr => newObject_above_threshold hgt hr, ⟨_, rfl, rfl, rfl, rfl, rfl⟩, ?_⟩
  rintro vm ⟨ops, ho⟩
  exact (run_invariant
    (fun vm => Inv vm ∧ (vm.numAllocatedObj ≤ vm.maxGCCapacity ∨ vm.maxGCCapacity = 0))
    (fun _ _ _ hI hs => step_trigger hI hs) ops newVM vm
    ⟨newVM_inv, Or.inl (by decide)⟩ ho).2

/-! ## The postcondition of the mark phase: C18 -/

theorem ustep_of_markSet {s : List Addr} {h : List _Object} {x y : Addr}
    (hs : UStep (markSet s h) x y) : UStep h x y :=
  ⟨(links_markSet s h x y).mp hs.1, ((unmarkedAt_markSet s h y).mp hs.2).2⟩

theorem ureach_of_markSet {s : List Addr} {h : List _Object} {x y : Addr}
    (hp : Relation.ReflTransGen (UStep (markSet s h)) x y) :
    Relation.ReflTransGen (UStep h) x y :=
  Relation.ReflTransGen.mono (fun _ _ hs => ustep_of_markSet hs) hp

/-- Every flag write of `mark` is in the closure of the start pointer
through objects whose flag was clear on entry. -/
theorem markWrites_ureach (fuel : Nat) : ∀ (h : List _Object) (a b : Addr),
    b ∈ markWrites fuel h a → UnmarkedReach h a b := by
  induction fuel with
  | zero => intro h a b hb; simp [markWrites] at hb
  | succ f ih =>
    intro h a b hb
    unfold markWrites at hb
    cases hl : lookup h a with
    | none => rw [hl] at hb; simp at hb
    | some o =>
      rw [hl] at hb
      simp only at hb
      by_cases hm : o.marked ≠ 0
      · rw [if_pos hm] at hb; simp at hb
      · rw [if_neg hm] at hb
        have hm0 : o.marked = 0 := not_not.mp hm
        have hua : UnmarkedAt h a := ⟨o, hl, hm0⟩
        by_cases ht : o.type = ObjectType.OBJ_PAIR
        · rw [if_pos ht] at hb
          have hfirst : ∀ c, c ∈ markWrites f (setMarked h a) o.head → UnmarkedReach h a c := by
            intro c hc
            obtain ⟨hu1, hp1⟩ := ih _ _ _ hc
            rw [setMarked_eq_markSet] at hu1 hp1
            exact ⟨hua, Relation.ReflTransGen.head
              ⟨⟨o, hl, ht, Or.inl rfl⟩, ((unmarkedAt_markSet _ _ _).mp hu1).2⟩
              (ureach_of_markSet hp1)⟩
          cases h1 : markFuel f (setMarked h a) o.head with
          | error e =>
            rw [h1] at hb
            simp only [List.mem_cons] at hb
            rcases hb with rfl | hb
            · exact ⟨hua, Relation.ReflTransGen.refl⟩
            · exact hfirst b hb
          | ok h3 =>
            rw [h1] at hb
            simp only [List.mem_cons, List.mem_append] at hb
            rcases hb with rfl | hb | hb
            · exact ⟨hua, Relation.ReflTransGen.refl⟩
            · exact hfirst b hb
            · obtain ⟨hu2, hp2⟩ := ih _ _ _ hb
              have e3 := (markFuel_post f _ _ _ h1).heap
              rw [e3, setMarked_eq_markSet, markSet_markSet] at hu2 hp2
              exact ⟨hua, Relation.ReflTransGen.head
                ⟨⟨o, hl, ht, Or.inr rfl⟩, ((unmarkedAt_markSet _ _ _).mp hu2).2⟩
                (ureach_of_markSet hp2)⟩
        · rw [if_neg ht] at hb
          rw [List.mem_singleton] at hb
          rw [hb]
          exact ⟨hua, Relation.ReflTransGen.refl⟩

/-- What a returning `mark` has written is exactly that closure. -/
theorem mem_markWrites_iff {h h2 : List _Object} {a : Addr} (hr : mark h a = .ok h2)
    (b : Addr) : b ∈ markWrites (unmarkedCount h + 1) h a ↔ UnmarkedReach h a b := by
  have p := mark_post hr
  have key : ∀ c, UnmarkedAt h c → MarkedAt h2 c →
      c ∈ markWrites (unmarkedCount h + 1) h a := by
    intro c hu hm
    rw [p.heap, markedAt_markSet] at hm
    rcases hm.2 with hm2 | hm2
    · exact hm2
    · exact absurd hu (not_unmarkedAt_of_markedAt hm2)
  refine ⟨markWrites_ureach _ h a b, ?_⟩
  rintro ⟨hua, hp⟩
  induction hp with
  | refl => exact key a hua (p.root a (List.mem_singleton.mpr rfl))
  | tail _ hs ih => exact key _ hs.2 (p.closure _ ih _ hs.1)

theorem markAll_ok_inv {vm vm1 : VM} (hr : markAll vm = .ok vm1) :
    ∃ h1, markAllLoop vm.stack (List.range vm.stackSize.toNat) vm.head = .ok h1
      ∧ vm1 = { vm with head := h1 } := by
  unfold markAll at hr
  cases hm : markAllLoop vm.stack (List.range vm.stackSize.toNat) vm.head with
  | error e => rw [hm] at hr; simp at hr
  | ok h1 =>
    rw [hm] at hr
    simp only [Except.ok.injEq] at hr
    exact ⟨h1, rfl, hr.symm⟩

/-- C18 (postcondition of the mark phase): from a state with all flags
clear, a `markAll` that returns has changed only flags, and an object then
has `marked == 1` exactly when its address is reachable from an occupied root
slot through pair links, every other flag being 0; `markAll` returns when no
pointer dangles and the stack fits its array.  From any flags, a `mark` that
returns has changed nothing but flags, it has set to 1 the flags at the
addresses in the closure of its argument through objects whose flag was
clear, and no others, and an address whose flag was set has it set
afterwards. -/
theorem mark_postcondition (vm : VM) (hu : AllUnmarked vm.head) :
    (Closed vm → vm.stackSize ≤ STACK_MAX → ∃ vm1, markAll vm = .ok vm1)
    ∧ (∀ vm1, markAll vm = .ok vm1 →
        vm1.stack = vm.stack ∧ vm1.stackSize = vm.stackSize
        ∧ vm1.numAllocatedObj = vm.numAllocatedObj ∧ vm1.maxGCCapacity = vm.maxGCCapacity
        ∧ (∃ w : List Addr, vm1.head = markSet w vm.head ∧ ∀ a, a ∈ w ↔ Reachable vm a)
        ∧ (∀ o ∈ vm1.head, (o.marked = 1 ↔ Reachable vm o.addr)
            ∧ (o.marked = 0 ∨ o.marked = 1)))
    ∧ (∀ (h : List _Object) (a : Addr) (h2 : List _Object), mark h a = .ok h2 →
        (∃ w : List Addr, h2 = markSet w h ∧ ∀ b, b ∈ w ↔ UnmarkedReach h a b)
        ∧ (∀ b, MarkedAt h b → MarkedAt h2 b)
        ∧ (∀ b, MarkedAt h2 b ↔ MarkedAt h b ∨ UnmarkedReach h a b)) := by
  refine ⟨?_, ?_, ?_⟩
  · intro hc hsz
    obtain ⟨h1, hm⟩ := markAllLoop_ok_of_closed vm.stack (List.range vm.stackSize.toNat)
      vm.head (linksValid_of_closed hc.2) (by
        intro i hi
        have hi2 : (i : Int) < vm.stackSize := Int.lt_toNat.mp (List.mem_range.mp hi)
        exact ⟨lt_of_lt_of_le hi2 hsz, hc.1 _ ⟨i, hi2, rfl⟩⟩)
    exact ⟨_, by unfold markAll; rw [hm]⟩
  · intro vm1 hr
    obtain ⟨h1, hm, rfl⟩ := markAll_ok_inv hr
    have p := markAllLoop_post _ _ _ _ hm
    have hw : ∀ a, a ∈ markAllWrites vm.stack (List.range vm.stackSize.toNat) vm.head
        ↔ Reachable vm a :=
      fun a => ⟨fun ha => reachable_of_markPost p ha,
        fun ha => (mem_writes_of_reachable hu p ha).1⟩
    refine ⟨rfl, rfl, rfl, rfl, ⟨_, p.heap, hw⟩, ?_⟩
    intro o ho
    simp only at ho
    rw [p.heap] at ho
    obtain ⟨o0, ho0, rfl⟩ := List.mem_map.mp ho
    have h0 := hu o0 ho0
    by_cases hmem : o0.addr ∈ markAllWrites vm.stack (List.range vm.stackSize.toNat) vm.head
    · rw [if_pos hmem]
      exact ⟨⟨fun _ => (hw _).mp hmem, fun _ => rfl⟩, Or.inr rfl⟩
    · rw [if_neg hmem]
      refine ⟨⟨fun h1' => ?_, fun hreach => absurd ((hw _).mpr hreach) hmem⟩, Or.inl h0⟩
      rw [h0] at h1'
      cases h1'
  · intro h a h2 hr
    have p := mark_post hr
    have hw := mem_markWrites_iff hr
    refine ⟨⟨_, p.heap, hw⟩, fun b hb => ?_, fun b => ?_⟩
    · rw [p.heap]; exact markedAt_mono _ hb
    · rw [p.heap, markedAt_markSet]
      constructor
      · rintro ⟨-, hb | hb⟩
        · exact Or.inr ((hw b).mp hb)
        · exact Or.inl hb
      · rintro (hb | hb)
        · exact ⟨mem_addrs_of_lookup hb.choose_spec.1, Or.inr hb⟩
        · have hbw := (hw b).mpr hb
          exact ⟨mem_addrs_of_lookup (p.fresh b hbw).choose_spec.1, Or.inl hbw⟩

/-- Witness of C18: `markAll` in the cyclic state of `test4` sets the flags
of 6, 4, 3, 1 and leaves those of 5 and 2 clear. -/
theorem mark_postcondition_witness :
    AllUnmarked cycleVM.head
    ∧ ∃ vm1, markAll cycleVM = .ok vm1
        ∧ vm1.head.map (fun o => (o.addr, o.marked))
            = [(6, 1), (5, 0), (4, 1), (3, 1), (2, 0), (1, 1)]
        ∧ ∀ o ∈ vm1.head, (o.marked = 1 ↔ Reachable cycleVM o.addr)
            ∧ (o.marked = 0 ∨ o.marked = 1) :=
  ⟨cycleVM_allUnmarked, _, rfl, rfl,
    ((mark_postcondition cycleVM cycleVM_allUnmarked).2.1 _ rfl).2.2.2.2.2⟩

/-! ## The depth of the recursion of `mark`: C20 -/

theorem markDepth_le_one (fuel : Nat) (h : List _Object) (a : Addr)
    (hn : ¬ UnmarkedAt h a) : markDepth fuel h a ≤ 1 := by
  cases fuel with
  | zero => simp [markDepth]
  | succ f =>
    unfold markDepth
    cases hl : lookup h a with
    | none => exact le_refl _
    | some o =>
      simp only
      by_cases hm : o.marked ≠ 0
      · rw [if_pos hm]
      · exact absurd ⟨o, hl, not_not.mp hm⟩ hn

/-- The call chain below a pair at `a`: a simple path in the registry `h`
that starts at `c` (or is empty) and avoids `a`. -/
theorem markDepth_sub {f : Nat} (h : List _Object) (a : Addr)
    (ih : ∀ (h : List _Object) (a : Addr), UnmarkedAt h a →
      ∃ p : List Addr, p.head? = some a ∧ p.Nodup ∧ List.Chain' (Links h) p
        ∧ (∀ x ∈ p, UnmarkedAt h x) ∧ markDepth f h a ≤ p.length + 1)
    (s : List Addr) (has : a ∈ s) (c : Addr) :
    ∃ q : List Addr, (∀ y ∈ q.head?, y = c) ∧ q.Nodup ∧ List.Chain' (Links h) q
      ∧ (∀ x ∈ q, UnmarkedAt h x ∧ x ≠ a) ∧ markDepth f (markSet s h) c ≤ q.length + 1 := by
  by_cases hu : UnmarkedAt (markSet s h) c
  · obtain ⟨p, hp0, hp1, hp2, hp3, hp4⟩ := ih _ _ hu
    refine ⟨p, ?_, hp1, ?_, ?_, hp4⟩
    · intro y hy
      rw [hp0] at hy
      exact (Option.some.inj hy).symm
    · rw [links_markSet_eq] at hp2
      exact hp2
    · intro x hx
      have := (unmarkedAt_markSet s h x).mp (hp3 x hx)
      exact ⟨this.2, fun he => this.1 (he ▸ has)⟩
  · exact ⟨[], by simp, List.nodup_nil, List.chain'_nil, by simp,
      by simpa using markDepth_le_one f _ c hu⟩

/-- The calls of `mark` that are active at once, but for one that returns at
its guard, are at the objects of a simple path from the start pointer. -/
theorem markDepth_path (fuel : Nat) : ∀ (h : List _Object) (a : Addr), UnmarkedAt h a →
    ∃ p : List Addr, p.head? = some a ∧ p.Nodup ∧ List.Chain' (Links h) p
      ∧ (∀ x ∈ p, UnmarkedAt h x) ∧ markDepth fuel h a ≤ p.length + 1 := by
  induction fuel with
  | zero =>
    intro h a hu
    exact ⟨[a], rfl, List.nodup_singleton a, List.chain'_singleton a,
      by simpa using hu, by simp [markDepth]⟩
  | succ f ih =>
    intro h a hu
    obtain ⟨o, hl, hm0⟩ := hu
    have hua : UnmarkedAt h a := ⟨o, hl, hm0⟩
    have hcons : ∀ (c : Addr) (q : List Addr), Links h a c → (∀ y ∈ q.head?, y = c) →
        q.Nodup → List.Chain' (Links h) q → (∀ x ∈ q, UnmarkedAt h x ∧ x ≠ a) →
        (a :: q).head? = some a ∧ (a :: q).Nodup ∧ List.Chain' (Links h) (a :: q)
          ∧ (∀ x ∈ a :: q, UnmarkedAt h x) := by
      intro c q hlk hq0 hq1 hq2 hq3
      refine ⟨rfl, List.nodup_cons.mpr ⟨fun ha => (hq3 a ha).2 rfl, hq1⟩, ?_, ?_⟩
      · exact hq2.cons' (fun y hy => by rw [hq0 y hy]; exact hlk)
      · intro x hx
        rcases List.mem_cons.mp hx with rfl | hx
        · exact hua
        · exact (hq3 x hx).1
    unfold markDepth
    rw [hl]
    simp only
    rw [if_neg (not_not.mpr hm0)]
    by_cases ht : o.type = ObjectType.OBJ_PAIR
    · rw [if_pos ht, setMarked_eq_markSet]
      obtain ⟨q1, a1, a2, a3, a4, a5⟩ := markDepth_sub h a ih [a]
        (List.mem_singleton.mpr rfl) o.head
      have p1 := hcons o.head q1 ⟨o, hl, ht, Or.inl rfl⟩ a1 a2 a3 a4
      cases h1 : markFuel f (markSet [a] h) o.head with
      | error e =>
        simp only
        exact ⟨a :: q1, p1.1, p1.2.1, p1.2.2.1, p1.2.2.2, by
          simp only [List.length_cons]; omega⟩
      | ok h3 =>
        simp only
        have e3 := (markFuel_post f _ _ _ h1).heap
        rw [markSet_markSet] at e3
        obtain ⟨q2, b1, b2, b3, b4, b5⟩ := markDepth_sub h a ih
          ([a] ++ markWrites f (markSet [a] h) o.head) (by simp) o.tail
        rw [← e3] at b5
        have p2 := hcons o.tail q2 ⟨o, hl, ht, Or.inr rfl⟩ b1 b2 b3 b4
        by_cases hle : q2.length ≤ q1.length
        · exact ⟨a :: q1, p1.1, p1.2.1, p1.2.2.1, p1.2.2.2, by
            simp only [List.length_cons]; omega⟩
        · exact ⟨a :: q2, p2.1, p2.2.1, p2.2.2.1, p2.2.2.2, by
            simp only [List.length_cons]; omega⟩
    · rw [if_neg ht]
      exact ⟨[a], rfl, List.nodup_singleton a, List.chain'_singleton a,
        by simpa using hua, by simp⟩

theorem markAllDepth_path (stack : Nat → Addr) (is : List Nat) : ∀ (h : List _Object),
    markAllDepth stack is h ≤ 1
    ∨ ∃ i ∈ is, ∃ p : List Addr, p.head? = some (stack i) ∧ p.Nodup
        ∧ List.Chain' (Links h) p ∧ (∀ x ∈ p, UnmarkedAt h x)
        ∧ markAllDepth stack is h ≤ p.length + 1 := by
  induction is with
  | nil => intro h; left; simp [markAllDepth]
  | cons i is ih =>
    intro h
    have hfirst : markDepth (unmarkedCount h + 1) h (stack i) ≤ 1
        ∨ ∃ p : List Addr, p.head? = some (stack i) ∧ p.Nodup
          ∧ List.Chain' (Links h) p ∧ (∀ x ∈ p, UnmarkedAt h x)
          ∧ markDepth (unmarkedCount h + 1) h (stack i) ≤ p.length + 1 := by
      by_cases hu : UnmarkedAt h (stack i)
      · exact Or.inr (markDepth_path _ h _ hu)
      · exact Or.inl (markDepth_le_one _ h _ hu)
    unfold markAllDepth
    by_cases hi : STACK_MAX ≤ (i : Int)
    · rw [if_pos hi]; left; omega
    · rw [if_neg hi]
      cases h1 : mark h (stack i) with
      | error e =>
        simp only
        rcases hfirst with hd | ⟨p, hp⟩
        · exact Or.inl hd
        · exact Or.inr ⟨i, List.mem_cons_self _ _, p, hp⟩
      | ok h2 =>
        simp only
        have e2 := (mark_post h1).heap
        rcases ih h2 with hr | ⟨j, hj, q, hq0, hq1, hq2, hq3, hq4⟩
        · rcases hfirst with hd | ⟨p, hp0, hp1, hp2, hp3, hp4⟩
          · left; omega
          · exact Or.inr ⟨i, List.mem_cons_self _ _, p, hp0, hp1, hp2, hp3, by omega⟩
        · rw [e2, links_markSet_eq] at hq2
          have hq3' : ∀ x ∈ q, UnmarkedAt h x := by
            intro x hx
            have := hq3 x hx
            rw [e2] at this
            exact ((unmarkedAt_markSet _ _ _).mp this).2
          rcases hfirst with hd | ⟨p, hp0, hp1, hp2, hp3, hp4⟩
          · exact Or.inr ⟨j, List.mem_cons_of_mem _ hj, q, hq0, hq1, hq2, hq3', by omega⟩
          · by_cases hle : q.length ≤ p.length
            · exact Or.inr ⟨i, List.mem_cons_self _ _, p, hp0, hp1, hp2, hp3, by omega⟩
            · exact Or.inr ⟨j, List.mem_cons_of_mem _ hj, q, hq0, hq1, hq2, hq3', by omega⟩

theorem rootPath_length_le {vm : VM} {p : List Addr} (hp : RootPath vm p) :
    p.length ≤ vm.head.length := by
  have := (List.subperm_of_subset hp.2.1 hp.2.2.2).length_le
  simpa [addrs] using this

theorem shallowVM_reachable : ReachableState shallowVM :=
  ⟨shallowOps, rfl⟩

theorem shallowVM_path : RootPath shallowVM [10, 7, 4, 1] := by
  refine ⟨⟨10, rfl, 3, by decide, rfl⟩, by decide, ?_, by decide⟩
  refine List.chain'_cons.mpr ⟨⟨_, rfl, rfl, Or.inl rfl⟩, ?_⟩
  refine List.chain'_cons.mpr ⟨⟨_, rfl, rfl, Or.inl rfl⟩, ?_⟩
  refine List.chain'_cons.mpr ⟨⟨_, rfl, rfl, Or.inl rfl⟩, ?_⟩
  exact List.chain'_singleton _

/-- Counterexample to C20 as stated: in a state the operations reach, with
all flags clear, the longest simple path from a root has four objects (three
links), from the pair at 10 down to the scalar at 1, while no more than two
calls of `mark` are ever active during `markAll`: every object of the chain
is a root that is marked before the pair above it. -/
theorem mark_depth_not_longest_path :
    ReachableState shallowVM ∧ AllUnmarked shallowVM.head
    ∧ LongestRootPath shallowVM 4
    ∧ markAllDepth shallowVM.stack (List.range shallowVM.stackSize.toNat) shallowVM.head = 2 :=
  ⟨shallowVM_reachable, by unfold AllUnmarked; decide,
    ⟨⟨_, shallowVM_path, rfl⟩, fun _ hp => rootPath_length_le hp⟩, rfl⟩

/-- C20, amended (depth of the recursion of marking): whatever the flags
are, the greatest number of calls of `mark` active at once during `markAll`
is at most one more than the number of objects on any longest simple path of
the object graph from a root (the one more being a call that returns at its
guard), hence at most one more than the number of objects. -/
theorem mark_depth_le_longest_path (vm : VM) (n : Nat)
    (hn : ∀ p, RootPath vm p → p.length ≤ n) :
    markAllDepth vm.stack (List.range vm.stackSize.toNat) vm.head ≤ n + 1
    ∧ markAllDepth vm.stack (List.range vm.stackSize.toNat) vm.head ≤ vm.head.length + 1 := by
  have key : ∀ m : Nat, (∀ p, RootPath vm p → p.length ≤ m) →
      markAllDepth vm.stack (List.range vm.stackSize.toNat) vm.head ≤ m + 1 := by
    intro m hm
    rcases markAllDepth_path vm.stack (List.range vm.stackSize.toNat) vm.head with
      hd | ⟨i, hi, p, hp0, hp1, hp2, hp3, hp4⟩
    · omega
    · have hroot : RootPath vm p :=
        ⟨⟨_, hp0, (mem_roots_iff vm _).mp (List.mem_map.mpr ⟨i, hi, rfl⟩)⟩, hp1, hp2,
          fun x hx => mem_addrs_of_lookup (hp3 x hx).choose_spec.1⟩
      have := hm p hroot
      omega
  exact ⟨key n hn, key _ (fun _ hp => rootPath_length_le hp)⟩

/-- Witness of the amended C20, where the bound is met: a pair that points
to itself is the only simple path, and the call for its `head` is the second
active call. -/
theorem mark_depth_le_longest_path_witness :
    (∀ p, RootPath selfVM p → p.length ≤ 1)
    ∧ markAllDepth selfVM.stack (List.range selfVM.stackSize.toNat) selfVM.head = 2
    ∧ markAllDepth selfVM.stack (List.range selfVM.stackSize.toNat) selfVM.head ≤ 1 + 1 :=
  ⟨fun _ hp => rootPath_length_le hp, rfl,
    (mark_depth_le_longest_path selfVM 1 (fun _ hp => rootPath_length_le hp)).1⟩

end TinyGC
